import Mathlib

/-!
Verification of the guitar_pedal looper engine.

The development shallowly embeds the two cooperating components of the
repository: the PlaybackManager clock protocol (src/playback_manager.rs)
and the LoopManager state machine (src/loop_manager.rs).  Audio samples
are modelled as rationals wherever the Rust code only moves them around,
and as real numbers for the two effect computations that use log10 and
arctan.  Fatal paths of the Rust code (assert failures and explicit
aborts) are modelled by Option-valued functions returning none.
-/

namespace GuitarPedal

/-- Clock events streamed from the PlaybackManager to the LoopManager,
mirroring enum Sample in src/lib.rs: a PreTick one buffer frame before a
measure boundary, a Tick at the boundary, or a plain audio sample. -/
inductive Sample where
  | preTick : Sample
  | tick : Sample
  | data (x : ℚ) : Sample
deriving DecidableEq

/-- One call of PlaybackManager.send_stream (src/playback_manager.rs):
for each sample, first push Tick when the measure counter has run out
(resetting it), else push PreTick when exactly B samples remain in the
measure, then push the Data sample and advance the counter.  The counter
argument is sample_counter; spm is samples_per_measure and B the buffer
frame size constant BUFFER_SIZE. -/
def sendStream (spm B : ℕ) : ℕ → List ℚ → List Sample
  | _, [] => []
  | c, x :: xs =>
    if spm - c = 0 then
      Sample.tick :: Sample.data x :: sendStream spm B 1 xs
    else if spm - c = B then
      Sample.preTick :: Sample.data x :: sendStream spm B (c + 1) xs
    else
      Sample.data x :: sendStream spm B (c + 1) xs

/-- Is the event a Data sample? -/
def isData : Sample → Bool
  | Sample.data _ => true
  | _ => false

/-- Number of Tick events in a trace. -/
def countTick (tr : List Sample) : ℕ := tr.countP (· == Sample.tick)

/-- Number of PreTick events in a trace. -/
def countPreTick (tr : List Sample) : ℕ := tr.countP (· == Sample.preTick)

/-- Number of Data events in a trace. -/
def countData (tr : List Sample) : ℕ := tr.countP isData

/-- The part of a trace strictly before its first Tick. -/
def beforeTick (tr : List Sample) : List Sample := tr.takeWhile (· != Sample.tick)

theorem countTick_sendStream (spm B : ℕ) (hspm : 0 < spm) :
    ∀ (xs : List ℚ) (c : ℕ), c ≤ spm →
      countTick (sendStream spm B c xs) = (xs.length + c - 1) / spm := by
  intro xs
  induction xs with
  | nil =>
    intro c hc
    have h1 : c - 1 < spm := by omega
    simp [sendStream, countTick, Nat.div_eq_of_lt h1]
  | cons x xs ih =>
    intro c hc
    by_cases h0 : spm - c = 0
    · have ihx := ih 1 hspm
      simp only [countTick] at ihx ⊢
      rw [show sendStream spm B c (x :: xs)
            = Sample.tick :: Sample.data x :: sendStream spm B 1 xs from by
          simp only [sendStream]; rw [if_pos h0]]
      simp only [List.countP_cons]
      have h2 : xs.length + 1 - 1 = xs.length := by omega
      have h3 : (x :: xs).length + c - 1 = xs.length + spm := by
        simp only [List.length_cons]; omega
      rw [ihx, h2, h3, Nat.add_div_right _ hspm]
      simp
    · have hc1 : c + 1 ≤ spm := by omega
      have ihx := ih (c + 1) hc1
      simp only [countTick] at ihx ⊢
      have h4 : xs.length + (c + 1) - 1 = (x :: xs).length + c - 1 := by
        simp only [List.length_cons]; omega
      by_cases hB : spm - c = B
      · rw [show sendStream spm B c (x :: xs)
              = Sample.preTick :: Sample.data x :: sendStream spm B (c + 1) xs from by
            simp only [sendStream]; rw [if_neg h0, if_pos hB]]
        simp only [List.countP_cons]
        rw [ihx, h4]
        simp
      · rw [show sendStream spm B c (x :: xs)
              = Sample.data x :: sendStream spm B (c + 1) xs from by
            simp only [sendStream]; rw [if_neg h0, if_neg hB]]
        simp only [List.countP_cons]
        rw [ihx, h4]
        simp

/-- Claim C3 counterexample: with samples_per_measure = 4 and
BUFFER_SIZE = 2, feeding exactly one measure worth of samples (T = 4)
pushes 0 Tick events, while the claim asserts floor(T / spm) = 1.  The
code only pushes the Tick for a measure boundary when the first sample
beyond the boundary arrives. -/
theorem c3_counterexample :
    countTick (sendStream 4 2 0 [0, 0, 0, 0]) ≠ 4 / 4 := by decide

/-- Claim C3 (amended): for every sequence of blocks fed through
send_stream from the initial counter, after processing a total of T
samples the number of Tick events pushed equals floor((T - 1) / spm)
(with truncated subtraction, so 0 when T = 0), not floor(T / spm). -/
theorem c3_amended (spm B : ℕ) (hspm : 0 < spm) (xs : List ℚ) :
    countTick (sendStream spm B 0 xs) = (xs.length - 1) / spm :=
  countTick_sendStream spm B hspm xs 0 (Nat.zero_le spm)

/-- Witness for c3_amended at spm = 4, B = 2 and five samples. -/
theorem c3_amended_witness :
    0 < 4 ∧
      countTick (sendStream 4 2 0 [0, 0, 0, 0, 0]) =
        ([(0 : ℚ), 0, 0, 0, 0].length - 1) / 4 :=
  ⟨by decide, c3_amended 4 2 (by decide) [0, 0, 0, 0, 0]⟩

/-- Shape of a clock trace as produced by send_stream, indexed by the
value of sample_counter and by a flag telling whether the PreTick of the
current counter position has already been emitted.  Data may be emitted
at counter c below spm, but at c = spm - B only after the PreTick; Tick
is emitted exactly at c = spm and resets the counter. -/
inductive Clocked (spm B : ℕ) : ℕ → Bool → List Sample → Prop where
  | nil (c : ℕ) (f : Bool) : Clocked spm B c f []
  | tick (tr : List Sample) :
      Clocked spm B 0 false tr → Clocked spm B spm false (Sample.tick :: tr)
  | preTick (tr : List Sample) :
      Clocked spm B (spm - B) true tr →
      Clocked spm B (spm - B) false (Sample.preTick :: tr)
  | data (c : ℕ) (f : Bool) (x : ℚ) (tr : List Sample) :
      c < spm → (c = spm - B ↔ f = true) →
      Clocked spm B (c + 1) false tr → Clocked spm B c f (Sample.data x :: tr)

theorem sendStream_clocked (spm B : ℕ) (hB : 0 < B) (hBs : B < spm) :
    ∀ (xs : List ℚ) (c : ℕ), c ≤ spm →
      Clocked spm B c false (sendStream spm B c xs) := by
  intro xs
  induction xs with
  | nil => intro c _; exact Clocked.nil c false
  | cons x xs ih =>
    intro c hc
    by_cases h0 : spm - c = 0
    · have hc' : c = spm := by omega
      rw [show sendStream spm B c (x :: xs)
            = Sample.tick :: Sample.data x :: sendStream spm B 1 xs from by
          simp only [sendStream]; rw [if_pos h0]]
      rw [hc']
      exact Clocked.tick _ (Clocked.data 0 false x _ (by omega)
        (by simp only [Bool.false_eq_true, iff_false]; omega) (ih 1 (by omega)))
    · by_cases hB' : spm - c = B
      · have hc' : c = spm - B := by omega
        rw [show sendStream spm B c (x :: xs)
              = Sample.preTick :: Sample.data x :: sendStream spm B (c + 1) xs from by
            simp only [sendStream]; rw [if_neg h0, if_pos hB']]
        rw [hc']
        refine Clocked.preTick _ (Clocked.data (spm - B) true x _ (by omega)
          (by simp) ?_)
        have : spm - B + 1 = c + 1 := by omega
        rw [this]
        exact ih (c + 1) (by omega)
      · rw [show sendStream spm B c (x :: xs)
              = Sample.data x :: sendStream spm B (c + 1) xs from by
            simp only [sendStream]; rw [if_neg h0, if_neg hB']]
        exact Clocked.data c false x _ (by omega)
          (by simp only [Bool.false_eq_true, iff_false]; omega) (ih (c + 1) (by omega))

/-- After any Tick inside a Clocked trace, the remaining trace is Clocked
from counter 0. -/
theorem clocked_after_tick (spm B : ℕ) :
    ∀ (u : List Sample) (c : ℕ) (f : Bool) (v : List Sample),
      Clocked spm B c f (u ++ Sample.tick :: v) → Clocked spm B 0 false v := by
  intro u
  induction u with
  | nil =>
    intro c f v h
    cases h with
    | tick _ h => exact h
  | cons e u ih =>
    intro c f v h
    cases h with
    | tick _ h => exact ih _ _ _ h
    | preTick _ h => exact ih _ _ _ h
    | data _ _ _ _ _ _ h => exact ih _ _ _ h

/-- After any PreTick inside a Clocked trace, the remaining trace is
Clocked from counter spm - B with the PreTick flag set. -/
theorem clocked_after_preTick (spm B : ℕ) :
    ∀ (u : List Sample) (c : ℕ) (f : Bool) (v : List Sample),
      Clocked spm B c f (u ++ Sample.preTick :: v) →
      Clocked spm B (spm - B) true v := by
  intro u
  induction u with
  | nil =>
    intro c f v h
    cases h with
    | preTick _ h => exact h
  | cons e u ih =>
    intro c f v h
    cases h with
    | tick _ h => exact ih _ _ _ h
    | preTick _ h => exact ih _ _ _ h
    | data _ _ _ _ _ _ h => exact ih _ _ _ h

/-- Up to the first Tick of a Clocked trace that does contain a Tick
there are exactly spm - c Data events, and exactly one PreTick when the
counter has not yet passed the PreTick position (flag not yet set). -/
theorem clocked_beforeTick (spm B : ℕ) (hB : 0 < B) (hBs : B < spm) :
    ∀ (tr : List Sample) (c : ℕ) (f : Bool),
      Clocked spm B c f tr → Sample.tick ∈ tr →
      countData (beforeTick tr) = spm - c ∧
        countPreTick (beforeTick tr)
          = (if f = false ∧ c ≤ spm - B then 1 else 0) := by
  intro tr
  induction tr with
  | nil => intro c f _ hmem; cases hmem
  | cons e tr ih =>
    intro c f h hmem
    cases h with
    | tick _ h =>
      have hbt : beforeTick (Sample.tick :: tr) = [] := by
        simp [beforeTick, List.takeWhile_cons]
      rw [hbt]
      constructor
      · simp [countData]
      · rw [if_neg (by rintro ⟨-, hle⟩; omega)]
        simp [countPreTick]
    | preTick _ h =>
      have hmem' : Sample.tick ∈ tr := by
        rcases List.mem_cons.mp hmem with h' | h'
        · cases h'
        · exact h'
      obtain ⟨ih1, ih2⟩ := ih _ _ h hmem'
      have hbt : beforeTick (Sample.preTick :: tr)
          = Sample.preTick :: beforeTick tr := by
        simp [beforeTick, List.takeWhile_cons]
      rw [hbt]
      rw [if_neg (by simp)] at ih2
      constructor
      · rw [countData, List.countP_cons_of_neg _ _ (by simp [isData])]
        exact ih1
      · rw [if_pos ⟨rfl, le_refl _⟩]
        rw [countPreTick, List.countP_cons_of_pos _ _ (by simp)]
        rw [countPreTick] at ih2
        omega
    | data c f x _ hlt hiff h =>
      have hmem' : Sample.tick ∈ tr := by
        rcases List.mem_cons.mp hmem with h' | h'
        · cases h'
        · exact h'
      obtain ⟨ih1, ih2⟩ := ih _ _ h hmem'
      have hbt : beforeTick (Sample.data x :: tr)
          = Sample.data x :: beforeTick tr := by
        simp [beforeTick, List.takeWhile_cons]
      rw [hbt]
      constructor
      · rw [countData, List.countP_cons_of_pos _ _ (by simp [isData])]
        rw [countData] at ih1
        omega
      · rw [countPreTick, List.countP_cons_of_neg _ _ (by simp)]
        rw [countPreTick] at ih2
        by_cases hceq : c = spm - B
        · have hf : f = true := hiff.mp hceq
          rw [if_neg (by rintro ⟨-, h'⟩; omega)] at ih2
          rw [if_neg (by simp [hf])]
          exact ih2
        · have hf : f = false := by
            cases f
            · rfl
            · exact absurd (hiff.mpr rfl) hceq
          by_cases hlt' : c < spm - B
          · rw [if_pos (⟨rfl, by omega⟩ : false = false ∧ c + 1 ≤ spm - B)] at ih2
            rw [if_pos ⟨hf, by omega⟩]
            exact ih2
          · rw [if_neg (by rintro ⟨-, h'⟩; omega)] at ih2
            rw [if_neg (by rintro ⟨-, h'⟩; omega)]
            exact ih2

/-- From the position just after a PreTick (or anywhere strictly past
it), the next spm - c events of a Clocked trace are all Data, and the
event right after them, if present, is the closing Tick. -/
theorem clocked_data_run_tick (spm B : ℕ) (hB : 0 < B) (hBs : B < spm) :
    ∀ (tr : List Sample) (c : ℕ) (f : Bool),
      Clocked spm B c f tr → (spm - B < c ∨ f = true) →
      (tr.take (spm - c)).all isData ∧
        (∀ e w, tr.drop (spm - c) = e :: w → e = Sample.tick) := by
  intro tr
  induction tr with
  | nil =>
    intro c f _ _
    constructor
    · simp
    · intro e w h; simp at h
  | cons e tr ih =>
    intro c f h hside
    cases h with
    | tick _ h =>
      refine ⟨by simp, ?_⟩
      intro e w hh
      rw [Nat.sub_self, List.drop_zero] at hh
      injection hh with h1 h2
      exact h1.symm
    | preTick _ h =>
      rcases hside with h' | h'
      · omega
      · cases h'
    | data c f x _ hlt hiff h =>
      have hstep : spm - B < c + 1 ∨ (false = true) := by
        left
        rcases hside with h' | h'
        · omega
        · have := hiff.mpr h'
          omega
      have := ih _ _ h hstep
      have hsub : spm - c = (spm - (c + 1)) + 1 := by omega
      rw [hsub]
      refine ⟨?_, ?_⟩
      · simp only [List.take_succ_cons, List.all_cons, Bool.and_eq_true]
        exact ⟨rfl, this.1⟩
      · intro e w hh
        simp only [List.drop_succ_cons] at hh
        exact this.2 e w hh

/-- Claim C2: for equal-size blocks of size B (total k * B samples) fed
through send_stream from sample_counter = 0 with B < samples_per_measure,
the pushed trace satisfies: before the first Tick there are exactly spm
Data events and exactly one PreTick; between any two consecutive Ticks
there are exactly spm Data events and exactly one PreTick; and every
PreTick is followed by exactly B Data events and then (when the trace
continues that far) by its Tick.  Measures are delimited by Ticks, which
the code emits with the first sample past each boundary. -/
theorem c2_clock_protocol (spm B k : ℕ) (xs : List ℚ)
    (hB : 0 < B) (hBs : B < spm) (hlen : xs.length = k * B) :
    (Sample.tick ∈ sendStream spm B 0 xs →
      countData (beforeTick (sendStream spm B 0 xs)) = spm ∧
        countPreTick (beforeTick (sendStream spm B 0 xs)) = 1) ∧
    (∀ u v, sendStream spm B 0 xs = u ++ Sample.tick :: v →
      Sample.tick ∈ v →
      countData (beforeTick v) = spm ∧ countPreTick (beforeTick v) = 1) ∧
    (∀ u v, sendStream spm B 0 xs = u ++ Sample.preTick :: v →
      (v.take B).all isData ∧
        (∀ e w, v.drop B = e :: w → e = Sample.tick)) := by
  have hcl : Clocked spm B 0 false (sendStream spm B 0 xs) :=
    sendStream_clocked spm B hB hBs xs 0 (Nat.zero_le spm)
  refine ⟨?_, ?_, ?_⟩
  · intro hmem
    have := clocked_beforeTick spm B hB hBs _ 0 false hcl hmem
    rw [if_pos ⟨rfl, Nat.zero_le _⟩] at this
    simpa using this
  · intro u v heq hmem
    have hcl' : Clocked spm B 0 false v := clocked_after_tick spm B u 0 false v (heq ▸ hcl)
    have := clocked_beforeTick spm B hB hBs v 0 false hcl' hmem
    rw [if_pos ⟨rfl, Nat.zero_le _⟩] at this
    simpa using this
  · intro u v heq
    have hcl' : Clocked spm B (spm - B) true v :=
      clocked_after_preTick spm B u 0 false v (heq ▸ hcl)
    have := clocked_data_run_tick spm B hB hBs v (spm - B) true hcl' (Or.inr rfl)
    have hsub : spm - (spm - B) = B := by omega
    rw [hsub] at this
    exact this

/-- Witness for c2_clock_protocol: spm = 4, B = 2, three blocks of two
samples; the first-measure conjunct is applied with the Tick membership
discharged by computation. -/
theorem c2_clock_protocol_witness :
    0 < 2 ∧ 2 < 4 ∧ ([(1 : ℚ), 2, 3, 4, 5, 6].length = 3 * 2) ∧
      (countData (beforeTick (sendStream 4 2 0 [(1 : ℚ), 2, 3, 4, 5, 6])) = 4 ∧
        countPreTick (beforeTick (sendStream 4 2 0 [(1 : ℚ), 2, 3, 4, 5, 6])) = 1) :=
  ⟨by decide, by decide, by decide,
    (c2_clock_protocol 4 2 3 [(1 : ℚ), 2, 3, 4, 5, 6] (by decide) (by decide)
      (by decide)).1 (by decide)⟩

/-- PlaybackManager.peak (src/playback_manager.rs): fold over the block
starting from (buffer[0], buffer[0]), keeping the running maximum and
minimum exactly as the Rust if/else-if chain does, then return the
peak-to-peak amplitude in dB as 20 * log10(max - min).  The head default
0 stands in for the indexing of a nonempty buffer. -/
noncomputable def peak (buffer : List ℝ) : ℝ :=
  let h0 := buffer.headD 0
  let mm := buffer.foldl
    (fun p x => if x > p.1 then (x, p.2) else if x < p.2 then (p.1, x) else p)
    (h0, h0)
  20 * Real.logb 10 (mm.1 - mm.2)

/-- PlaybackManager.compressor: with the shipped threshold -30 dB and
compression factor 4 inlined, return the scale 10^(((peak - threshold) *
(1/4 - 1) + threshold * (1/4 - 1)) / 20) when peak is at least the
threshold, and 1 otherwise. -/
noncomputable def compressor (buffer : List ℝ) : ℝ :=
  if peak buffer ≥ -30 then
    (10 : ℝ) ^ (((peak buffer - (-30)) * (1 / 4 - 1) + (-30) * (1 / 4 - 1)) / 20)
  else 1

/-- The compression branch of PlaybackManager.process_block: every output
sample is the input sample times the block scale. -/
noncomputable def compressBlock (input : List ℝ) : List ℝ :=
  input.map (fun x => x * compressor input)

theorem peak_fold_eq (xs : List ℝ) :
    ∀ (a b : ℝ), b ≤ a →
      xs.foldl
          (fun p x => if x > p.1 then (x, p.2) else if x < p.2 then (p.1, x) else p)
          (a, b)
        = (xs.foldl max a, xs.foldl min b) := by
  induction xs with
  | nil => intro a b _; rfl
  | cons x xs ih =>
    intro a b hba
    simp only [List.foldl_cons]
    by_cases h1 : x > a
    · rw [if_pos h1, max_eq_right h1.le, min_eq_left (hba.trans h1.le)]
      exact ih x b (hba.trans h1.le)
    · rw [if_neg h1]
      by_cases h2 : x < b
      · rw [if_pos h2, max_eq_left (le_of_not_lt h1), min_eq_right h2.le]
        exact ih a x ((h2.le).trans hba)
      · rw [if_neg h2, max_eq_left (le_of_not_lt h1), min_eq_left (le_of_not_lt h2)]
        exact ih a b hba

/-- Claim C4: for a non-empty block with compression on, the computed
peak is 20 * log10(max - min) over the block, and the scale applied to
every sample is 10^(((peak - threshold) * (1/ratio - 1) + threshold *
(1/ratio - 1)) / 20) with threshold = -30 and ratio = 4 when the peak is
at least the threshold, and 1 below it. -/
theorem c4_compressor (input : List ℝ) (h : input ≠ []) :
    peak input
      = 20 * Real.logb 10
          (input.foldl max (input.headD 0) - input.foldl min (input.headD 0)) ∧
    compressBlock input
      = input.map (fun x => x *
          (if 20 * Real.logb 10
              (input.foldl max (input.headD 0) - input.foldl min (input.headD 0))
              ≥ -30
           then (10 : ℝ) ^
              (((20 * Real.logb 10
                    (input.foldl max (input.headD 0) - input.foldl min (input.headD 0))
                  - (-30)) * (1 / 4 - 1) + (-30) * (1 / 4 - 1)) / 20)
           else 1)) := by
  have hpeak : peak input
      = 20 * Real.logb 10
          (input.foldl max (input.headD 0) - input.foldl min (input.headD 0)) := by
    unfold peak
    simp only [peak_fold_eq input (input.headD 0) (input.headD 0) (le_refl _)]
  refine ⟨hpeak, ?_⟩
  unfold compressBlock compressor
  rw [hpeak]

/-- Witness for c4_compressor on the one-sample block [1]. -/
theorem c4_compressor_witness :
    ([(1 : ℝ)] ≠ []) ∧
      (peak [(1 : ℝ)]
          = 20 * Real.logb 10
              ([(1 : ℝ)].foldl max ([(1 : ℝ)].headD 0)
                - [(1 : ℝ)].foldl min ([(1 : ℝ)].headD 0)) ∧
        compressBlock [(1 : ℝ)]
          = [(1 : ℝ)].map (fun x => x *
              (if 20 * Real.logb 10
                  ([(1 : ℝ)].foldl max ([(1 : ℝ)].headD 0)
                    - [(1 : ℝ)].foldl min ([(1 : ℝ)].headD 0))
                  ≥ -30
               then (10 : ℝ) ^
                  (((20 * Real.logb 10
                        ([(1 : ℝ)].foldl max ([(1 : ℝ)].headD 0)
                          - [(1 : ℝ)].foldl min ([(1 : ℝ)].headD 0))
                      - (-30)) * (1 / 4 - 1) + (-30) * (1 / 4 - 1)) / 20)
               else 1))) :=
  ⟨by simp, c4_compressor [(1 : ℝ)] (by simp)⟩

/-- The waveshaping table of PlaybackManager.distortion: entry k holds
arctan(k * 3 / 1000) * 0.8, sampled for k in 0..1000. -/
noncomputable def table (k : ℕ) : ℝ := Real.arctan (k * 3 / 1000) * 0.8

/-- Truncation toward zero, the behavior of Rust trunc() as i32 on the
modelled real inputs. -/
noncomputable def truncTowardZero (x : ℝ) : ℤ := if 0 ≤ x then ⌊x⌋ else ⌈x⌉

/-- The waveshape closure of PlaybackManager.distortion: index the table
with trunc(x * 1000), with the sign-mirrored branch for indices in
(-1000, 0), the positive saturation branch only for indices strictly
above 1000, and the remaining inputs falling to -table[999]. -/
noncomputable def waveshape (x : ℝ) : ℝ :=
  if 0 ≤ truncTowardZero (x * 1000) ∧ truncTowardZero (x * 1000) < 1000 then
    table (truncTowardZero (x * 1000)).toNat
  else if truncTowardZero (x * 1000) < 0 ∧ -1000 < truncTowardZero (x * 1000) then
    -1 * table (-truncTowardZero (x * 1000)).toNat
  else if 1000 < truncTowardZero (x * 1000) then table 999
  else -1 * table 999

/-- PlaybackManager.distortion applied to a whole block. -/
noncomputable def distortion (buffer : List ℝ) : List ℝ := buffer.map waveshape

/-- The distortion branch of PlaybackManager.process_block: mix the dry
block with the wet block at the inlined wet share 0.10. -/
noncomputable def distortStage (output : List ℝ) : List ℝ :=
  List.zipWith (fun x w => x * (1 - 0.10) + w * 0.10) output (distortion output)

theorem table_999_pos : 0 < table 999 := by
  unfold table
  have h1 : Real.arctan 0 < Real.arctan (999 * 3 / 1000) :=
    Real.arctan_strictMono (by norm_num)
  rw [Real.arctan_zero] at h1
  nlinarith

/-- Claim C5 counterexample: at the input x = 1.0 the wet sample is
-table[999], not sign(1) * table[999] = table[999]: trunc(1 * 1000) =
1000 satisfies neither the in-range branch (needs < 1000) nor the
positive saturation branch (needs > 1000), so the code falls through to
the negative saturation value. -/
theorem c5_counterexample :
    waveshape 1 = -1 * table 999 ∧ waveshape 1 ≠ table 999 := by
  have hk : truncTowardZero ((1 : ℝ) * 1000) = 1000 := by
    unfold truncTowardZero
    rw [if_pos (by norm_num)]
    norm_num
  have h1 : waveshape 1 = -1 * table 999 := by
    unfold waveshape
    rw [hk]
    norm_num
  refine ⟨h1, ?_⟩
  rw [h1]
  have := table_999_pos
  intro heq
  nlinarith

/-- The wet value claimed by the specification, amended only at the
inputs with trunc(x * 1000) = 1000, that is x in [1, 1.001), where the
code produces -table[999] instead of sign(x) * table[999].  All other
inputs keep the claimed value: table[trunc(x*1000)] on [0, 1),
-table[trunc(-x*1000)] on (-1, 0), -table[999] for x at most -1, and
table[999] for x with x * 1000 at least 1001. -/
noncomputable def waveshapeSpec (x : ℝ) : ℝ :=
  if 0 ≤ x ∧ x < 1 then table (truncTowardZero (x * 1000)).toNat
  else if -1 < x ∧ x < 0 then -1 * table (truncTowardZero (-(x * 1000))).toNat
  else if x ≤ -1 then -1 * table 999
  else if x * 1000 < 1001 then -1 * table 999
  else table 999

/-- Claim C5 (amended): for every input sample the wet signal equals the
amended specification value (the original claim corrected only on
[1, 1.001), where the code yields -table[999]); and the output of the
distortion stage mixes 90 percent dry with 10 percent wet. -/
theorem c5_distortion_amended :
    (∀ x : ℝ, waveshape x = waveshapeSpec x) ∧
      (∀ out : List ℝ,
        distortStage out
          = List.zipWith (fun d w => 0.9 * d + 0.1 * w) out (out.map waveshape)) := by
  constructor
  · intro x
    rcases le_or_lt 0 x with hx0 | hx0
    · have htr : truncTowardZero (x * 1000) = ⌊x * 1000⌋ :=
        if_pos (by nlinarith)
      rcases lt_or_le x 1 with hx1 | hx1
      · have hfl0 : 0 ≤ ⌊x * 1000⌋ := Int.floor_nonneg.mpr (by nlinarith)
        have hfl1 : ⌊x * 1000⌋ < 1000 := by
          rw [Int.floor_lt]
          push_cast
          nlinarith
        unfold waveshape waveshapeSpec
        rw [htr, if_pos ⟨hfl0, hfl1⟩, if_pos ⟨hx0, hx1⟩]
      · have hfl0 : (1000 : ℤ) ≤ ⌊x * 1000⌋ := by
          rw [Int.le_floor]
          push_cast
          nlinarith
        have hn1 : ¬(0 ≤ ⌊x * 1000⌋ ∧ ⌊x * 1000⌋ < 1000) := by
          rintro ⟨-, h⟩; omega
        have hn2 : ¬(⌊x * 1000⌋ < 0 ∧ (-1000 : ℤ) < ⌊x * 1000⌋) := by
          rintro ⟨h, -⟩; omega
        have hn3 : ¬(0 ≤ x ∧ x < 1) := by rintro ⟨-, h⟩; linarith
        have hn4 : ¬(-1 < x ∧ x < 0) := by rintro ⟨-, h⟩; linarith
        have hn5 : ¬(x ≤ -1) := by intro h; linarith
        unfold waveshape waveshapeSpec
        rw [htr]
        rw [if_neg hn1, if_neg hn2, if_neg hn3, if_neg hn4, if_neg hn5]
        rcases lt_or_le (x * 1000) 1001 with hlt | hge
        · have hfl2 : ⌊x * 1000⌋ < 1001 := by
            rw [Int.floor_lt]
            push_cast
            linarith
          have hn6 : ¬((1000 : ℤ) < ⌊x * 1000⌋) := by omega
          rw [if_neg hn6, if_pos hlt]
        · have hfl2 : (1001 : ℤ) ≤ ⌊x * 1000⌋ := by
            rw [Int.le_floor]
            push_cast
            linarith
          have hp6 : (1000 : ℤ) < ⌊x * 1000⌋ := by omega
          rw [if_pos hp6, if_neg (not_lt.mpr hge)]
    · have htr : truncTowardZero (x * 1000) = ⌈x * 1000⌉ :=
        if_neg (by intro h; nlinarith)
      rcases le_or_lt x (-1) with hx1 | hx1
      · have hcl : ⌈x * 1000⌉ ≤ -1000 := by
          rw [Int.ceil_le]
          push_cast
          nlinarith
        have hn1 : ¬(0 ≤ ⌈x * 1000⌉ ∧ ⌈x * 1000⌉ < 1000) := by
          rintro ⟨h, -⟩; omega
        have hn2 : ¬(⌈x * 1000⌉ < 0 ∧ (-1000 : ℤ) < ⌈x * 1000⌉) := by
          rintro ⟨-, h⟩; omega
        have hn3 : ¬((1000 : ℤ) < ⌈x * 1000⌉) := by omega
        have hn4 : ¬(0 ≤ x ∧ x < 1) := by rintro ⟨h, -⟩; linarith
        have hn5 : ¬(-1 < x ∧ x < 0) := by rintro ⟨h, -⟩; linarith
        unfold waveshape waveshapeSpec
        rw [htr]
        rw [if_neg hn1, if_neg hn2, if_neg hn3, if_neg hn4, if_neg hn5, if_pos hx1]
      · have hceil_le : ⌈x * 1000⌉ ≤ 0 := by
          rw [Int.ceil_le]
          push_cast
          nlinarith
        have hgt : (-1000 : ℤ) < ⌈x * 1000⌉ := by
          rw [Int.lt_ceil]
          push_cast
          nlinarith
        have hspec2 : -1 < x ∧ x < 0 := ⟨hx1, hx0⟩
        have hfloorneg : truncTowardZero (-(x * 1000)) = ⌊-(x * 1000)⌋ :=
          if_pos (by nlinarith)
        have hfneg : ⌊-(x * 1000)⌋ = -⌈x * 1000⌉ := Int.floor_neg
        have hn3 : ¬(0 ≤ x ∧ x < 1) := by rintro ⟨h, -⟩; linarith
        rcases eq_or_lt_of_le hceil_le with hceq | hclt
        · unfold waveshape waveshapeSpec
          rw [htr, hceq]
          rw [if_pos (⟨le_refl _, by norm_num⟩ : (0 : ℤ) ≤ 0 ∧ (0 : ℤ) < 1000),
              if_neg hn3, if_pos hspec2]
          rw [hfloorneg, hfneg, hceq]
          have h0 : table 0 = 0 := by
            unfold table
            norm_num
          simp [h0]
        · have hn1 : ¬(0 ≤ ⌈x * 1000⌉ ∧ ⌈x * 1000⌉ < 1000) := by
            rintro ⟨h, -⟩; omega
          unfold waveshape waveshapeSpec
          rw [htr]
          rw [if_neg hn1, if_pos ⟨hclt, hgt⟩, if_neg hn3, if_pos hspec2]
          rw [hfloorneg, hfneg]
  · intro out
    unfold distortStage distortion
    have hfun : (fun (x w : ℝ) => x * (1 - 0.10) + w * 0.10)
        = fun d w => 0.9 * d + 0.1 * w := by
      funext a b
      norm_num
      ring
    rw [hfun]

/-- Status of a single loop register (enum LoopStatus in
src/loop_manager.rs). -/
inductive LoopStatus where
  | Off : LoopStatus
  | On (m : ℕ) : LoopStatus
  | RecordStart : LoopStatus
  | Recording : LoopStatus
  | RecordEnd : LoopStatus
  | Empty : LoopStatus
deriving DecidableEq

/-- LoopStatus.increment: advance an On loop to its next measure modulo
its length; any other status (and a zero length, where the Rust remainder
aborts) is a fatal error. -/
def LoopStatus.increment : LoopStatus → ℕ → Option LoopStatus
  | LoopStatus.On x, len =>
    if len = 0 then none else some (LoopStatus.On ((x + 1) % len))
  | _, _ => none

/-- Commands sent from the Interface to the LoopManager (enum
LoopMessage in src/interface.rs). -/
inductive LoopMessage where
  | toggleLoop (i : ℕ) : LoopMessage
  | stopRecording : LoopMessage
deriving DecidableEq

/-- One item consumed by the LoopManager worker loop: either a command
from the message channel or a clock event popped from the sample
stream. -/
inductive Event where
  | cmd (m : LoopMessage) : Event
  | clk (e : Sample) : Event
deriving DecidableEq

/-- State of the LoopManager (struct LoopManager in src/loop_manager.rs):
per-loop sample buffers, lengths in measures, statuses, the recording
flag and cached recording index, plus the list of samples pushed so far
into the playback ring buffer.  samples_per_measure is kept as an
explicit parameter of the operations rather than a stored field. -/
structure LoopManager where
  loops : List (List ℚ)
  lengths : List ℕ
  status : List LoopStatus
  anyRecording : Bool
  recordingAtIndex : ℕ
  playback : List ℚ
deriving DecidableEq

/-- LoopManager.check_messages plus LoopManager.stop_recording: dispatch
one command.  ToggleLoop turns Off to On(0) and On to Off, arms an Empty
loop as RecordStart only when nothing is recording, and leaves busy
loops untouched; StopRecording moves the recording loop to RecordEnd and
is a no-op when nothing records. -/
def checkMessages (s : LoopManager) (m : LoopMessage) : LoopManager :=
  match m with
  | LoopMessage.toggleLoop index =>
    match s.status.getD index LoopStatus.Empty with
    | LoopStatus.Off => { s with status := s.status.set index (LoopStatus.On 0) }
    | LoopStatus.On _ => { s with status := s.status.set index LoopStatus.Off }
    | LoopStatus.Empty =>
      if s.anyRecording then s
      else { s with status := s.status.set index LoopStatus.RecordStart }
    | LoopStatus.Recording => s
    | LoopStatus.RecordStart => s
    | LoopStatus.RecordEnd => s
  | LoopMessage.stopRecording =>
    if s.anyRecording then
      { s with status := s.status.set s.recordingAtIndex LoopStatus.RecordEnd }
    else s

/-- LoopManager.update_recording_status: on a Tick, extend the recording
loop by one measure; otherwise scan the register in order, abort on a
pending RecordEnd, and promote the first RecordStart to Recording. -/
def updateRecordingStatus (s : LoopManager) : Option LoopManager :=
  if s.anyRecording then
    some { s with
      lengths := s.lengths.set s.recordingAtIndex
        (s.lengths.getD s.recordingAtIndex 0 + 1) }
  else
    match s.status.findIdx? (fun st =>
        st == LoopStatus.RecordEnd || st == LoopStatus.RecordStart) with
    | none => some s
    | some i =>
      if s.status.getD i LoopStatus.Empty == LoopStatus.RecordEnd then none
      else some { s with
        status := s.status.set i LoopStatus.Recording,
        anyRecording := true,
        recordingAtIndex := i }

/-- The Data branch of LoopManager.run: append the sample to the
recording loop when one is active. -/
def dataStep (s : LoopManager) (x : ℚ) : LoopManager :=
  if s.anyRecording then
    { s with
        loops := s.loops.set s.recordingAtIndex
          ((s.loops.getD s.recordingAtIndex []) ++ [x]) }
  else s

/-- The drain loop of LoopManager.finish_recording_loop: keep popping
the stream, appending Data samples to the loop at the given index, until
a Tick arrives, whose handler checks that the buffer holds whole
measures; a PreTick (or running dry, or a command standing where only
stream data can be) is fatal. -/
def drainRecording (spm : ℕ) (index : ℕ) :
    LoopManager → List Event → Option (LoopManager × List Event)
  | _, [] => none
  | _, Event.cmd _ :: _ => none
  | s, Event.clk (Sample.data x) :: evs =>
    drainRecording spm index
      { s with loops := s.loops.set index ((s.loops.getD index []) ++ [x]) } evs
  | s, Event.clk Sample.tick :: evs =>
    if (s.loops.getD index []).length % spm = 0 then some (s, evs) else none
  | _, Event.clk Sample.preTick :: _ => none

/-- LoopManager.finish_recording_loop: require the recording loop to be
pending completion, count the measure being closed, set the loop playing
from its start, clear the recording flag, then drain the stream up to
the closing Tick. -/
def finishRecordingLoop (spm : ℕ) (s : LoopManager) (evs : List Event) :
    Option (LoopManager × List Event) :=
  if s.status.getD s.recordingAtIndex LoopStatus.Empty = LoopStatus.RecordEnd then
    drainRecording spm s.recordingAtIndex
      { s with
        lengths := s.lengths.set s.recordingAtIndex
          (s.lengths.getD s.recordingAtIndex 0 + 1),
        status := s.status.set s.recordingAtIndex (LoopStatus.On 0),
        anyRecording := false } evs
  else none

/-- The active-loop collection of LoopManager.enqueue_loops: the pairs
(measure offset, loop index) of every loop that is On or RecordEnd, the
latter at offset 0. -/
def activeLoops (s : LoopManager) : List (ℕ × ℕ) :=
  (List.range s.loops.length).filterMap (fun i =>
    match s.status.getD i LoopStatus.Empty with
    | LoopStatus.On x => some (x, i)
    | LoopStatus.RecordEnd => some ((0 : ℕ), i)
    | _ => none)

/-- One mixed output sample: the sum over the active loops of the sample
at offset * spm + i of each loop, out-of-range reads contributing the
default 0. -/
def mixedSample (spm : ℕ) (s : LoopManager) (active : List (ℕ × ℕ)) (i : ℕ) : ℚ :=
  active.foldl (fun acc oi =>
    acc + ((s.loops.getD oi.2 []).getD (oi.1 * spm + i) 0)) 0

/-- Push one mixed sample into the playback buffer. -/
def mixPush (spm : ℕ) (active : List (ℕ × ℕ)) (s : LoopManager) (i : ℕ) :
    LoopManager :=
  { s with playback := s.playback ++ [mixedSample spm s active i] }

/-- The mixing loop body of LoopManager.enqueue_loops, iterating the
output position i with n iterations left: push the mixed sample for i,
and exactly when a recording is pending completion and i is the measure
midpoint spm / 2, run finish_recording_loop before continuing. -/
def enqueueGo (spm : ℕ) (active : List (ℕ × ℕ)) (pending : Bool) :
    ℕ → ℕ → LoopManager → List Event → Option (LoopManager × List Event)
  | _, 0, s, evs => some (s, evs)
  | i, n + 1, s, evs =>
    let s1 := mixPush spm active s i
    if pending ∧ i = spm / 2 then
      match finishRecordingLoop spm s1 evs with
      | some (s2, evs2) => enqueueGo spm active pending (i + 1) n s2 evs2
      | none => none
    else
      enqueueGo spm active pending (i + 1) n s1 evs

/-- The offset-increment pass closing LoopManager.enqueue_loops: advance
the status of every collected active loop; a loop no longer On there (or
a zero length) is a fatal error. -/
def incrementAll : List (ℕ × ℕ) → LoopManager → Option LoopManager
  | [], s => some s
  | oi :: rest, s =>
    match (s.status.getD oi.2 LoopStatus.Empty).increment (s.lengths.getD oi.2 0) with
    | some st => incrementAll rest { s with status := s.status.set oi.2 st }
    | none => none

/-- LoopManager.enqueue_loops: snapshot whether the recording loop is
pending completion and which loops are active, stream the spm mixed
samples of the coming measure (finishing the pending recording at the
midpoint), then advance every active loop to its next measure. -/
def enqueueLoops (spm : ℕ) (s : LoopManager) (evs : List Event) :
    Option (LoopManager × List Event) :=
  match enqueueGo spm (activeLoops s)
      (s.status.getD s.recordingAtIndex LoopStatus.Empty == LoopStatus.RecordEnd)
      0 spm s evs with
  | some (s1, evs1) =>
    match incrementAll (activeLoops s) s1 with
    | some s2 => some (s2, evs1)
    | none => none
  | none => none

theorem drainRecording_rest_length (spm index : ℕ) :
    ∀ (evs : List Event) (s s2 : LoopManager) (evs2 : List Event),
      drainRecording spm index s evs = some (s2, evs2) →
      evs2.length ≤ evs.length := by
  intro evs
  induction evs with
  | nil => intro s s2 evs2 h; simp [drainRecording] at h
  | cons e evs ih =>
    intro s s2 evs2 h
    match e with
    | Event.cmd m => simp [drainRecording] at h
    | Event.clk (Sample.data x) =>
      have := ih _ _ _ h
      simp only [List.length_cons]
      omega
    | Event.clk Sample.tick =>
      simp only [drainRecording] at h
      by_cases hmod : (s.loops.getD index []).length % spm = 0
      · rw [if_pos hmod] at h
        injection h with h'
        injection h' with h1 h2
        rw [← h2]
        simp
      · rw [if_neg hmod] at h
        cases h
    | Event.clk Sample.preTick => simp [drainRecording] at h

theorem finishRecordingLoop_rest_length (spm : ℕ) (s : LoopManager)
    (evs : List Event) (s2 : LoopManager) (evs2 : List Event)
    (h : finishRecordingLoop spm s evs = some (s2, evs2)) :
    evs2.length ≤ evs.length := by
  unfold finishRecordingLoop at h
  by_cases hrec :
      s.status.getD s.recordingAtIndex LoopStatus.Empty = LoopStatus.RecordEnd
  · rw [if_pos hrec] at h
    exact drainRecording_rest_length spm s.recordingAtIndex _ _ _ _ h
  · rw [if_neg hrec] at h
    cases h

theorem enqueueGo_rest_length (spm : ℕ) (active : List (ℕ × ℕ)) (pending : Bool) :
    ∀ (n i : ℕ) (s s2 : LoopManager) (evs evs2 : List Event),
      enqueueGo spm active pending i n s evs = some (s2, evs2) →
      evs2.length ≤ evs.length := by
  intro n
  induction n with
  | zero =>
    intro i s s2 evs evs2 h
    simp only [enqueueGo] at h
    injection h with h'
    injection h' with h1 h2
    rw [← h2]
  | succ n ih =>
    intro i s s2 evs evs2 h
    simp only [enqueueGo] at h
    by_cases hcond : pending = true ∧ i = spm / 2
    · rw [if_pos hcond] at h
      cases hfin : finishRecordingLoop spm (mixPush spm active s i) evs with
      | none => rw [hfin] at h; cases h
      | some p =>
        rw [hfin] at h
        have h1 := finishRecordingLoop_rest_length spm _ evs p.1 p.2 (by
          rw [hfin])
        have h2 := ih (i + 1) p.1 s2 p.2 evs2 h
        omega
    · rw [if_neg hcond] at h
      exact ih (i + 1) _ s2 evs evs2 h

theorem enqueueLoops_rest_length (spm : ℕ) (s : LoopManager)
    (evs : List Event) (s2 : LoopManager) (evs2 : List Event)
    (h : enqueueLoops spm s evs = some (s2, evs2)) :
    evs2.length ≤ evs.length := by
  unfold enqueueLoops at h
  cases hgo : enqueueGo spm (activeLoops s)
      (s.status.getD s.recordingAtIndex LoopStatus.Empty == LoopStatus.RecordEnd)
      0 spm s evs with
  | none => rw [hgo] at h; cases h
  | some p =>
    obtain ⟨s1, evs1⟩ := p
    rw [hgo] at h
    dsimp only at h
    cases hinc : incrementAll (activeLoops s) s1 with
    | none => rw [hinc] at h; cases h
    | some s3 =>
      rw [hinc] at h
      injection h with h'
      injection h' with h1 h2
      rw [← h2]
      exact enqueueGo_rest_length spm _ _ spm 0 s s1 evs evs1 (by rw [hgo])

/-- Fuel-indexed form of the worker loop of LoopManager.run; see
runEngine below.  Each iteration consumes one item from the list (the
PreTick case also hands the tail to enqueue_loops, which may drain
further stream events), so fuel equal to the item count never runs out
before the list does (enqueueLoops_rest_length). -/
def runEngineAux (spm : ℕ) : ℕ → LoopManager → List Event → Option LoopManager
  | _, s, [] => some s
  | 0, _, _ :: _ => none
  | n + 1, s, Event.cmd m :: evs => runEngineAux spm n (checkMessages s m) evs
  | n + 1, s, Event.clk (Sample.data x) :: evs =>
    runEngineAux spm n (dataStep s x) evs
  | n + 1, s, Event.clk Sample.tick :: evs =>
    match updateRecordingStatus s with
    | some s1 => runEngineAux spm n s1 evs
    | none => none
  | n + 1, s, Event.clk Sample.preTick :: evs =>
    match enqueueLoops spm s evs with
    | some p => runEngineAux spm n p.1 p.2
    | none => none

/-- The worker loop of LoopManager.run, consuming a list of items: mix a
measure ahead on PreTick (which may drain further stream events), update
recording bookkeeping on Tick, append Data while recording, and handle
one command per iteration; none models a fatal abort. -/
def runEngine (spm : ℕ) (s : LoopManager) (evs : List Event) :
    Option LoopManager :=
  runEngineAux spm evs.length s evs

theorem getD_set_self {α : Type _} (l : List α) (i : ℕ) (v d : α)
    (h : i < l.length) : (l.set i v).getD i d = v := by
  rw [List.getD_eq_getElem?_getD, List.getElem?_set_self h]
  rfl

theorem getD_set_ne {α : Type _} (l : List α) (i j : ℕ) (v d : α)
    (h : i ≠ j) : (l.set i v).getD j d = l.getD j d := by
  rw [List.getD_eq_getElem?_getD, List.getElem?_set_ne h,
    ← List.getD_eq_getElem?_getD]

theorem set_getD_self {α : Type _} :
    ∀ (l : List α) (i : ℕ) (d : α), l.set i (l.getD i d) = l := by
  intro l
  induction l with
  | nil => intro i d; rfl
  | cons a l ih =>
    intro i d
    cases i with
    | zero => rfl
    | succ i =>
      simp only [List.set_cons_succ, List.getD_cons_succ]
      rw [ih]

/-- The metronome measure assembled by LoopManager.new: the big click
padded with silence to one beat, followed by three little clicks each
padded with silence to one beat. -/
def metronome (spb : ℕ) (bigTick littleTick : List ℚ) : List ℚ :=
  (bigTick ++ List.replicate (spb - bigTick.length) 0) ++
    (List.replicate 3 (littleTick ++ List.replicate (spb - littleTick.length) 0)).join

/-- LoopManager.new (src/loop_manager.rs): synthesize the metronome,
check it fills exactly one measure (the assert, modelled as the guard),
install it as loop 0 with length 1 and status On(0), start the other
loops Empty with length 0, and push the whole metronome measure into the
playback buffer before any clock event is handled. -/
def mkLoopManager (numLoops spb : ℕ) (bigTick littleTick : List ℚ) :
    Option LoopManager :=
  if (metronome spb bigTick littleTick).length = spb * 4 then
    some { loops := (List.replicate numLoops ([] : List ℚ)).set 0
             (metronome spb bigTick littleTick),
           lengths := (List.replicate numLoops 0).set 0 1,
           status := (List.replicate numLoops LoopStatus.Empty).set 0
             (LoopStatus.On 0),
           anyRecording := false,
           recordingAtIndex := 0,
           playback := metronome spb bigTick littleTick }
  else none

theorem metronome_length (spb : ℕ) (bigTick littleTick : List ℚ)
    (hb : bigTick.length ≤ spb) (hl : littleTick.length ≤ spb) :
    (metronome spb bigTick littleTick).length = spb * 4 := by
  unfold metronome
  simp only [List.length_append, List.length_join, List.map_replicate,
    List.length_replicate, List.sum_replicate, smul_eq_mul]
  omega

/-- Claim C9: when the click samples each fit within one beat, the
constructor succeeds and pushes exactly samples_per_measure samples (the
whole synthesized metronome measure) into the playback channel before
any clock event is processed, starting from the documented initial
register state. -/
theorem c9_startup (numLoops spb : ℕ) (bigTick littleTick : List ℚ)
    (hb : bigTick.length ≤ spb) (hl : littleTick.length ≤ spb) :
    mkLoopManager numLoops spb bigTick littleTick
      = some { loops := (List.replicate numLoops ([] : List ℚ)).set 0
                 (metronome spb bigTick littleTick),
               lengths := (List.replicate numLoops 0).set 0 1,
               status := (List.replicate numLoops LoopStatus.Empty).set 0
                 (LoopStatus.On 0),
               anyRecording := false,
               recordingAtIndex := 0,
               playback := metronome spb bigTick littleTick } ∧
      (metronome spb bigTick littleTick).length = spb * 4 := by
  have hlen := metronome_length spb bigTick littleTick hb hl
  constructor
  · unfold mkLoopManager
    rw [if_pos hlen]
  · exact hlen

/-- Witness for c9_startup with two registers, two samples per beat and
one-sample clicks. -/
theorem c9_startup_witness :
    ([(1 : ℚ)].length ≤ 2) ∧ ([(2 : ℚ)].length ≤ 2) ∧
      (mkLoopManager 2 2 [(1 : ℚ)] [(2 : ℚ)]
          = some { loops := (List.replicate 2 ([] : List ℚ)).set 0
                     (metronome 2 [(1 : ℚ)] [(2 : ℚ)]),
                   lengths := (List.replicate 2 0).set 0 1,
                   status := (List.replicate 2 LoopStatus.Empty).set 0
                     (LoopStatus.On 0),
                   anyRecording := false,
                   recordingAtIndex := 0,
                   playback := metronome 2 [(1 : ℚ)] [(2 : ℚ)] } ∧
        (metronome 2 [(1 : ℚ)] [(2 : ℚ)]).length = 2 * 4) :=
  ⟨by decide, by decide, c9_startup 2 2 [(1 : ℚ)] [(2 : ℚ)] (by decide) (by decide)⟩

/-- Claim C7: command handling on any state: ToggleLoop maps Off to
On(0) and On to Off; it arms an Empty loop as RecordStart exactly when
no recording is active and otherwise changes nothing; on a busy loop
(Recording, RecordStart, RecordEnd) it changes nothing at all; and
StopRecording with no active recording leaves the state unchanged. -/
theorem c7_commands (s : LoopManager) (i : ℕ) :
    (s.status.getD i LoopStatus.Empty = LoopStatus.Off →
      checkMessages s (LoopMessage.toggleLoop i)
        = { s with status := s.status.set i (LoopStatus.On 0) }) ∧
    (∀ m, s.status.getD i LoopStatus.Empty = LoopStatus.On m →
      checkMessages s (LoopMessage.toggleLoop i)
        = { s with status := s.status.set i LoopStatus.Off }) ∧
    (s.status.getD i LoopStatus.Empty = LoopStatus.Empty →
      s.anyRecording = false →
      checkMessages s (LoopMessage.toggleLoop i)
        = { s with status := s.status.set i LoopStatus.RecordStart }) ∧
    (s.status.getD i LoopStatus.Empty = LoopStatus.Empty →
      s.anyRecording = true →
      checkMessages s (LoopMessage.toggleLoop i) = s) ∧
    ((s.status.getD i LoopStatus.Empty = LoopStatus.Recording ∨
      s.status.getD i LoopStatus.Empty = LoopStatus.RecordStart ∨
      s.status.getD i LoopStatus.Empty = LoopStatus.RecordEnd) →
      checkMessages s (LoopMessage.toggleLoop i) = s) ∧
    (s.anyRecording = false →
      checkMessages s LoopMessage.stopRecording = s) := by
  refine ⟨?_, ?_, ?_, ?_, ?_, ?_⟩
  · intro h
    unfold checkMessages
    dsimp only
    rw [h]
  · intro m h
    unfold checkMessages
    dsimp only
    rw [h]
  · intro h hrec
    unfold checkMessages
    dsimp only
    rw [h]
    simp [hrec]
  · intro h hrec
    unfold checkMessages
    dsimp only
    rw [h]
    simp [hrec]
  · intro h
    unfold checkMessages
    dsimp only
    rcases h with h | h | h <;> rw [h]
  · intro h
    unfold checkMessages
    dsimp only
    simp [h]

/-- Witness for c7_commands on a concrete six-loop state exercising the
Off branch. -/
theorem c7_commands_witness :
    (({ loops := [[], [], [], [], [], []],
        lengths := [0, 0, 0, 0, 0, 0],
        status := [LoopStatus.Off, LoopStatus.On 3, LoopStatus.Empty,
          LoopStatus.Recording, LoopStatus.RecordStart, LoopStatus.RecordEnd],
        anyRecording := false,
        recordingAtIndex := 0,
        playback := [] } : LoopManager).status.getD 0 LoopStatus.Empty
        = LoopStatus.Off) ∧
      checkMessages
          { loops := [[], [], [], [], [], []],
            lengths := [0, 0, 0, 0, 0, 0],
            status := [LoopStatus.Off, LoopStatus.On 3, LoopStatus.Empty,
              LoopStatus.Recording, LoopStatus.RecordStart, LoopStatus.RecordEnd],
            anyRecording := false,
            recordingAtIndex := 0,
            playback := [] } (LoopMessage.toggleLoop 0)
        = { loops := [[], [], [], [], [], []],
            lengths := [0, 0, 0, 0, 0, 0],
            status := ([LoopStatus.Off, LoopStatus.On 3, LoopStatus.Empty,
              LoopStatus.Recording, LoopStatus.RecordStart,
              LoopStatus.RecordEnd]).set 0 (LoopStatus.On 0),
            anyRecording := false,
            recordingAtIndex := 0,
            playback := [] } :=
  ⟨by decide,
    (c7_commands
      { loops := [[], [], [], [], [], []],
        lengths := [0, 0, 0, 0, 0, 0],
        status := [LoopStatus.Off, LoopStatus.On 3, LoopStatus.Empty,
          LoopStatus.Recording, LoopStatus.RecordStart, LoopStatus.RecordEnd],
        anyRecording := false,
        recordingAtIndex := 0,
        playback := [] } 0).1 (by decide)⟩

/-- Claim C10: command handling never touches any sample buffer or any
loop length; only statuses and the recording bookkeeping can change. -/
theorem c10_command_frame (s : LoopManager) (m : LoopMessage) :
    (checkMessages s m).loops = s.loops ∧
      (checkMessages s m).lengths = s.lengths := by
  cases m with
  | toggleLoop i =>
    unfold checkMessages
    dsimp only
    cases hst : s.status.getD i LoopStatus.Empty with
    | Off => exact ⟨rfl, rfl⟩
    | On m => exact ⟨rfl, rfl⟩
    | RecordStart => exact ⟨rfl, rfl⟩
    | Recording => exact ⟨rfl, rfl⟩
    | RecordEnd => exact ⟨rfl, rfl⟩
    | Empty =>
      by_cases hrec : s.anyRecording = true
      · rw [if_pos hrec]; exact ⟨rfl, rfl⟩
      · rw [if_neg hrec]; exact ⟨rfl, rfl⟩
  | stopRecording =>
    unfold checkMessages
    dsimp only
    by_cases hrec : s.anyRecording = true
    · rw [if_pos hrec]; exact ⟨rfl, rfl⟩
    · rw [if_neg hrec]; exact ⟨rfl, rfl⟩

theorem drainRecording_run (spm index : ℕ) :
    ∀ (xs : List ℚ) (s : LoopManager) (rest : List Event),
      index < s.loops.length →
      drainRecording spm index s
          (xs.map (fun x => Event.clk (Sample.data x)) ++ Event.clk Sample.tick :: rest)
        = if ((s.loops.getD index []).length + xs.length) % spm = 0
          then some ({ s with
              loops := s.loops.set index ((s.loops.getD index []) ++ xs) }, rest)
          else none := by
  intro xs
  induction xs with
  | nil =>
    intro s rest hidx
    have h1 : ({ s with
        loops := s.loops.set index ((s.loops.getD index []) ++ []) } : LoopManager)
          = s := by
      rw [List.append_nil, set_getD_self]
    simp only [List.map_nil, List.nil_append, drainRecording, List.length_nil,
      Nat.add_zero, h1]
  | cons x xs ih =>
    intro s rest hidx
    simp only [List.map_cons, List.cons_append, drainRecording, List.append_eq]
    rw [ih _ rest (by rw [List.length_set]; exact hidx)]
    have hg : (({ s with
        loops := s.loops.set index ((s.loops.getD index []) ++ [x]) } :
          LoopManager).loops.getD index [])
        = (s.loops.getD index []) ++ [x] :=
      getD_set_self _ _ _ _ hidx
    rw [hg]
    have hnum : ((s.loops.getD index []) ++ [x]).length + xs.length
        = (s.loops.getD index []).length + (x :: xs).length := by
      simp only [List.length_append, List.length_cons, List.length_nil]
      omega
    rw [hnum]
    have hset : (s.loops.set index ((s.loops.getD index []) ++ [x])).set index
          (((s.loops.getD index []) ++ [x]) ++ xs)
        = s.loops.set index ((s.loops.getD index []) ++ x :: xs) := by
      rw [List.set_set, List.append_assoc, List.singleton_append]
    rw [hset]

theorem drainRecording_preTick (spm index : ℕ) :
    ∀ (xs : List ℚ) (s : LoopManager) (rest : List Event),
      drainRecording spm index s
          (xs.map (fun x => Event.clk (Sample.data x))
            ++ Event.clk Sample.preTick :: rest) = none := by
  intro xs
  induction xs with
  | nil => intro s rest; rfl
  | cons x xs ih =>
    intro s rest
    simp only [List.map_cons, List.cons_append, drainRecording, List.append_eq]
    exact ih _ rest

/-- The pure mixing pass: push the mixed samples for n consecutive
positions starting at i, with no recording pending. -/
def mixRun (spm : ℕ) (active : List (ℕ × ℕ)) : ℕ → ℕ → LoopManager → LoopManager
  | _, 0, s => s
  | i, n + 1, s => mixRun spm active (i + 1) n (mixPush spm active s i)

theorem enqueueGo_noPending (spm : ℕ) (active : List (ℕ × ℕ)) :
    ∀ (n i : ℕ) (s : LoopManager) (evs : List Event),
      enqueueGo spm active false i n s evs
        = some (mixRun spm active i n s, evs) := by
  intro n
  induction n with
  | zero => intro i s evs; rfl
  | succ n ih =>
    intro i s evs
    simp only [enqueueGo, mixRun]
    rw [if_neg (by rintro ⟨h, -⟩; exact Bool.noConfusion h)]
    exact ih (i + 1) (mixPush spm active s i) evs

theorem enqueueGo_after (spm : ℕ) (active : List (ℕ × ℕ)) :
    ∀ (n i : ℕ) (s : LoopManager) (evs : List Event), spm / 2 < i →
      enqueueGo spm active true i n s evs
        = some (mixRun spm active i n s, evs) := by
  intro n
  induction n with
  | zero => intro i s evs _; rfl
  | succ n ih =>
    intro i s evs hi
    simp only [enqueueGo, mixRun]
    rw [if_neg (by rintro ⟨-, h⟩; omega)]
    exact ih (i + 1) (mixPush spm active s i) evs (by omega)

theorem enqueueGo_split (spm : ℕ) (active : List (ℕ × ℕ)) (hspm : 0 < spm) :
    ∀ (n i : ℕ) (s : LoopManager) (evs : List Event),
      i + n = spm → i ≤ spm / 2 →
      enqueueGo spm active true i n s evs
        = match finishRecordingLoop spm
              (mixRun spm active i (spm / 2 + 1 - i) s) evs with
          | some p =>
            some (mixRun spm active (spm / 2 + 1) (spm - (spm / 2 + 1)) p.1, p.2)
          | none => none := by
  intro n
  induction n with
  | zero =>
    intro i s evs hin hile
    exfalso
    omega
  | succ n ih =>
    intro i s evs hin hile
    simp only [enqueueGo]
    by_cases hieq : i = spm / 2
    · rw [if_pos ⟨by trivial, hieq⟩]
      have h1 : spm / 2 + 1 - i = 1 := by omega
      rw [h1]
      have hmix : mixRun spm active i 1 s = mixPush spm active s i := rfl
      rw [hmix]
      cases hfin : finishRecordingLoop spm (mixPush spm active s i) evs with
      | none => rfl
      | some p =>
        dsimp only
        have hi1 : i + 1 = spm / 2 + 1 := by omega
        have hn : n = spm - (spm / 2 + 1) := by omega
        rw [enqueueGo_after spm active n (i + 1) p.1 p.2 (by omega), hi1, hn]
    · rw [if_neg (by rintro ⟨-, h⟩; exact hieq h)]
      rw [ih (i + 1) (mixPush spm active s i) evs (by omega) (by omega)]
      have hmr : mixRun spm active (i + 1) (spm / 2 + 1 - (i + 1))
            (mixPush spm active s i)
          = mixRun spm active i (spm / 2 + 1 - i) s := by
        have h2 : spm / 2 + 1 - i = (spm / 2 + 1 - (i + 1)) + 1 := by omega
        rw [h2]
        rfl
      rw [hmr]

/-- Claim C8: with the recording loop pending completion, (i) the
finish-recording procedure run against a stream of Data samples followed
by the closing Tick appends every Data sample to that loop, increments
its length by one measure, sets its status to On(0), and clears the
recording flag, consuming the stream through the Tick; (ii) a PreTick
popped during the drain is a fatal error; (iii) enqueue_loops invokes
the procedure exactly after mixing positions 0 through spm / 2, that is
at position samples_per_measure / 2. -/
theorem c8_finish_recording (spm : ℕ) (hspm : 0 < spm) (s : LoopManager)
    (hrec : s.status.getD s.recordingAtIndex LoopStatus.Empty
      = LoopStatus.RecordEnd)
    (hidx : s.recordingAtIndex < s.loops.length) :
    (∀ (xs : List ℚ) (rest : List Event),
      ((s.loops.getD s.recordingAtIndex []).length + xs.length) % spm = 0 →
      finishRecordingLoop spm s
          (xs.map (fun x => Event.clk (Sample.data x))
            ++ Event.clk Sample.tick :: rest)
        = some ({ s with
            loops := s.loops.set s.recordingAtIndex
              ((s.loops.getD s.recordingAtIndex []) ++ xs),
            lengths := s.lengths.set s.recordingAtIndex
              (s.lengths.getD s.recordingAtIndex 0 + 1),
            status := s.status.set s.recordingAtIndex (LoopStatus.On 0),
            anyRecording := false }, rest)) ∧
    (∀ (xs : List ℚ) (rest : List Event),
      finishRecordingLoop spm s
          (xs.map (fun x => Event.clk (Sample.data x))
            ++ Event.clk Sample.preTick :: rest) = none) ∧
    (∀ evs : List Event,
      enqueueLoops spm s evs
        = match finishRecordingLoop spm
              (mixRun spm (activeLoops s) 0 (spm / 2 + 1) s) evs with
          | some p =>
            match incrementAll (activeLoops s)
                (mixRun spm (activeLoops s) (spm / 2 + 1)
                  (spm - (spm / 2 + 1)) p.1) with
            | some s2 => some (s2, p.2)
            | none => none
          | none => none) := by
  refine ⟨?_, ?_, ?_⟩
  · intro xs rest hmod
    unfold finishRecordingLoop
    rw [if_pos hrec]
    rw [drainRecording_run spm s.recordingAtIndex xs _ rest
      (by simpa using hidx)]
    rw [if_pos (by simpa using hmod)]
  · intro xs rest
    unfold finishRecordingLoop
    rw [if_pos hrec]
    exact drainRecording_preTick spm s.recordingAtIndex xs _ rest
  · intro evs
    unfold enqueueLoops
    have hpend : (s.status.getD s.recordingAtIndex LoopStatus.Empty
        == LoopStatus.RecordEnd) = true := by
      rw [hrec]
      rfl
    rw [hpend]
    rw [enqueueGo_split spm (activeLoops s) hspm spm 0 s evs (by omega)
      (Nat.zero_le _)]
    rw [Nat.sub_zero]
    cases hfin : finishRecordingLoop spm
        (mixRun spm (activeLoops s) 0 (spm / 2 + 1) s) evs with
    | none => rfl
    | some p => rfl

/-- Witness for c8_finish_recording: spm = 4, one loop holding two
samples in RecordEnd, drained with two Data samples and the closing
Tick. -/
theorem c8_finish_recording_witness :
    0 < 4 ∧
      (({ loops := [[(1 : ℚ), 2]], lengths := [0],
          status := [LoopStatus.RecordEnd], anyRecording := true,
          recordingAtIndex := 0, playback := [] } :
            LoopManager).status.getD 0 LoopStatus.Empty
        = LoopStatus.RecordEnd) ∧
      (0 < 1) ∧
      ((([[(1 : ℚ), 2]].getD 0 []).length + [(3 : ℚ), 4].length) % 4 = 0) ∧
      finishRecordingLoop 4
          { loops := [[(1 : ℚ), 2]], lengths := [0],
            status := [LoopStatus.RecordEnd], anyRecording := true,
            recordingAtIndex := 0, playback := [] }
          ([(3 : ℚ), 4].map (fun x => Event.clk (Sample.data x))
            ++ Event.clk Sample.tick :: [])
        = some
            ({ loops := [[(1 : ℚ), 2]].set 0 (([[(1 : ℚ), 2]].getD 0 []) ++ [3, 4]),
               lengths := [0].set 0 (([0].getD 0 0) + 1),
               status := [LoopStatus.RecordEnd].set 0 (LoopStatus.On 0),
               anyRecording := false,
               recordingAtIndex := 0,
               playback := [] }, []) :=
  ⟨by decide, by decide, by decide, by decide,
    (c8_finish_recording 4 (by decide)
      { loops := [[(1 : ℚ), 2]], lengths := [0],
        status := [LoopStatus.RecordEnd], anyRecording := true,
        recordingAtIndex := 0, playback := [] }
      (by decide) (by decide)).1 [(3 : ℚ), 4] [] (by decide)⟩

theorem getD_set_ite {α : Type _} (l : List α) (i j : ℕ) (v d : α) :
    (l.set i v).getD j d = if i = j ∧ i < l.length then v else l.getD j d := by
  by_cases h1 : i = j
  · by_cases h2 : i < l.length
    · rw [if_pos ⟨h1, h2⟩]
      subst h1
      exact getD_set_self l i v d h2
    · rw [if_neg (by rintro ⟨-, h⟩; exact h2 h)]
      subst h1
      rw [List.getD_eq_getElem?_getD, List.getD_eq_getElem?_getD,
        List.getElem?_eq_none (by rw [List.length_set]; omega),
        List.getElem?_eq_none (by omega)]
  · rw [if_neg (by rintro ⟨h, -⟩; exact h1 h)]
    exact getD_set_ne l i j v d h1

theorem getD_replicate_self {α : Type _} (n j : ℕ) (d : α) :
    (List.replicate n d).getD j d = d := by
  rw [List.getD_eq_getElem?_getD, List.getElem?_replicate]
  split_ifs <;> rfl

/-- A loop is busy when it is Recording or RecordEnd. -/
def isBusy (st : LoopStatus) : Bool :=
  st == LoopStatus.Recording || st == LoopStatus.RecordEnd

/-- A loop is armed or busy when it is Recording, RecordStart or
RecordEnd, the set named by the claimed register invariant. -/
def armedOrBusy (st : LoopStatus) : Bool :=
  st == LoopStatus.Recording || st == LoopStatus.RecordStart ||
    st == LoopStatus.RecordEnd

/-- Number of loops whose status is Recording or RecordEnd. -/
def busyCount (s : LoopManager) : ℕ := (s.status.filter isBusy).length

/-- Number of loops whose status is Recording, RecordStart or
RecordEnd. -/
def armedCount (s : LoopManager) : ℕ := (s.status.filter armedOrBusy).length

/-- The single-recording invariant over the relevant fields: when the
flag is set, the cached index is in range and names the unique busy
loop; when it is clear, no loop is busy. -/
def RecInvOn (any : Bool) (rec : ℕ) (st : List LoopStatus) : Prop :=
  (any = true → rec < st.length ∧
    isBusy (st.getD rec LoopStatus.Empty) = true ∧
    ∀ j, j < st.length → j ≠ rec →
      isBusy (st.getD j LoopStatus.Empty) = false) ∧
  (any = false → ∀ j, j < st.length →
    isBusy (st.getD j LoopStatus.Empty) = false)

/-- The single-recording invariant of a LoopManager state. -/
def RecInv (s : LoopManager) : Prop :=
  RecInvOn s.anyRecording s.recordingAtIndex s.status

theorem filter_eq_nil_of_getD {α : Type _} (p : α → Bool) (d : α) :
    ∀ (l : List α), (∀ j, j < l.length → p (l.getD j d) = false) →
      l.filter p = [] := by
  intro l
  induction l with
  | nil => intro _; rfl
  | cons a l ih =>
    intro h
    have ha : p a = false := by
      have := h 0 (by simp)
      simpa using this
    rw [List.filter_cons, if_neg (by simp [ha])]
    exact ih (fun j hj => by
      have := h (j + 1) (by simp only [List.length_cons]; omega)
      simpa [List.getD_cons_succ] using this)

theorem filter_length_le_one {α : Type _} (p : α → Bool) (d : α) :
    ∀ (l : List α) (r : ℕ),
      (∀ j, j < l.length → j ≠ r → p (l.getD j d) = false) →
      (l.filter p).length ≤ 1 := by
  intro l
  induction l with
  | nil => intro r _; simp
  | cons a l ih =>
    intro r h
    rcases Nat.eq_zero_or_pos r with hr | hr
    · subst hr
      have htail : l.filter p = [] :=
        filter_eq_nil_of_getD p d l (fun j hj => by
          have := h (j + 1) (by simp only [List.length_cons]; omega) (by omega)
          simpa [List.getD_cons_succ] using this)
      rw [List.filter_cons]
      by_cases hpa : p a = true
      · rw [if_pos hpa, htail]
        simp
      · rw [if_neg hpa, htail]
        simp
    · have ha : p a = false := by
        have := h 0 (by simp) (by omega)
        simpa using this
      rw [List.filter_cons, if_neg (by simp [ha])]
      exact ih (r - 1) (fun j hj hne => by
        have := h (j + 1) (by simp only [List.length_cons]; omega) (by omega)
        simpa [List.getD_cons_succ] using this)

theorem RecInv.busyCount_le_one (s : LoopManager) (h : RecInv s) :
    busyCount s ≤ 1 := by
  unfold busyCount
  cases hany : s.anyRecording with
  | true =>
    obtain ⟨-, -, huniq⟩ := h.1 hany
    exact filter_length_le_one isBusy LoopStatus.Empty s.status
      s.recordingAtIndex huniq
  | false =>
    rw [filter_eq_nil_of_getD isBusy LoopStatus.Empty s.status (h.2 hany)]
    simp

theorem RecInvOn_set_nonbusy (any : Bool) (rec : ℕ) (st : List LoopStatus)
    (i : ℕ) (v : LoopStatus) (hv : isBusy v = false)
    (hninb : isBusy (st.getD i LoopStatus.Empty) = false)
    (h : RecInvOn any rec st) : RecInvOn any rec (st.set i v) := by
  obtain ⟨h1, h2⟩ := h
  constructor
  · intro hany
    obtain ⟨ha, hb, hc⟩ := h1 hany
    have hine : i ≠ rec := by
      intro he
      rw [he, hb] at hninb
      exact Bool.noConfusion hninb
    refine ⟨by simpa [List.length_set] using ha, ?_, ?_⟩
    · rw [getD_set_ite, if_neg (by rintro ⟨he, -⟩; exact hine he)]
      exact hb
    · intro j hj hjne
      rw [getD_set_ite]
      split_ifs with hcase
      · exact hv
      · exact hc j (by simpa [List.length_set] using hj) hjne
  · intro hany j hj
    rw [getD_set_ite]
    split_ifs with hcase
    · exact hv
    · exact h2 hany j (by simpa [List.length_set] using hj)

theorem RecInvOn_set_recordEnd (rec : ℕ) (st : List LoopStatus)
    (h : RecInvOn true rec st) :
    RecInvOn true rec (st.set rec LoopStatus.RecordEnd) := by
  obtain ⟨h1, -⟩ := h
  obtain ⟨ha, hb, hc⟩ := h1 rfl
  constructor
  · intro _
    refine ⟨by simpa [List.length_set] using ha, ?_, ?_⟩
    · rw [getD_set_ite, if_pos ⟨rfl, ha⟩]
      rfl
    · intro j hj hjne
      rw [getD_set_ite, if_neg (by rintro ⟨he, -⟩; exact hjne he.symm)]
      exact hc j (by simpa [List.length_set] using hj) hjne
  · intro hfalse
    exact Bool.noConfusion hfalse

theorem RecInv_checkMessages (s : LoopManager) (m : LoopMessage)
    (h : RecInv s) : RecInv (checkMessages s m) := by
  cases m with
  | toggleLoop i =>
    unfold checkMessages
    dsimp only
    cases hst : s.status.getD i LoopStatus.Empty with
    | Off =>
      exact RecInvOn_set_nonbusy _ _ _ _ _ rfl (by rw [hst]; rfl) h
    | On m =>
      exact RecInvOn_set_nonbusy _ _ _ _ _ rfl (by rw [hst]; rfl) h
    | Empty =>
      split_ifs with hany
      · exact h
      · exact RecInvOn_set_nonbusy _ _ _ _ _ rfl (by rw [hst]; rfl) h
    | Recording => exact h
    | RecordStart => exact h
    | RecordEnd => exact h
  | stopRecording =>
    unfold checkMessages
    dsimp only
    split_ifs with hany
    · have h' : RecInvOn true s.recordingAtIndex s.status := by
        rw [← hany]
        exact h
      have := RecInvOn_set_recordEnd s.recordingAtIndex s.status h'
      unfold RecInv
      rw [hany]
      exact this
    · exact h

theorem findIdx?_spec {α : Type _} (p : α → Bool) (d : α) :
    ∀ (l : List α) (k i : ℕ), List.findIdx? p l k = some i →
      k ≤ i ∧ i - k < l.length ∧ p (l.getD (i - k) d) = true := by
  intro l
  induction l with
  | nil => intro k i h; rw [List.findIdx?_nil] at h; cases h
  | cons a l ih =>
    intro k i h
    rw [List.findIdx?_cons] at h
    by_cases hpa : p a = true
    · rw [if_pos hpa] at h
      injection h with he
      subst he
      refine ⟨le_refl _, by simp, ?_⟩
      rw [Nat.sub_self, List.getD_cons_zero]
      exact hpa
    · rw [if_neg hpa] at h
      obtain ⟨h1, h2, h3⟩ := ih (k + 1) i h
      refine ⟨by omega, by simp only [List.length_cons]; omega, ?_⟩
      have hik : i - k = (i - (k + 1)) + 1 := by omega
      rw [hik, List.getD_cons_succ]
      exact h3

theorem RecInv_updateRecordingStatus (s s1 : LoopManager) (h : RecInv s)
    (hup : updateRecordingStatus s = some s1) : RecInv s1 := by
  unfold updateRecordingStatus at hup
  by_cases hany : s.anyRecording = true
  · rw [if_pos hany] at hup
    injection hup with he
    rw [← he]
    exact h
  · rw [if_neg hany] at hup
    have hanyF : s.anyRecording = false := by
      cases hx : s.anyRecording
      · rfl
      · exact absurd hx hany
    cases hfind : s.status.findIdx? (fun st =>
        st == LoopStatus.RecordEnd || st == LoopStatus.RecordStart) with
    | none =>
      rw [hfind] at hup
      dsimp only at hup
      injection hup with he
      rw [← he]
      exact h
    | some i =>
      rw [hfind] at hup
      dsimp only at hup
      obtain ⟨-, hilt, -⟩ :=
        findIdx?_spec (fun st =>
          st == LoopStatus.RecordEnd || st == LoopStatus.RecordStart)
          LoopStatus.Empty s.status 0 i hfind
      rw [Nat.sub_zero] at hilt
      by_cases hre : (s.status.getD i LoopStatus.Empty
          == LoopStatus.RecordEnd) = true
      · rw [if_pos hre] at hup
        cases hup
      · rw [if_neg hre] at hup
        injection hup with he
        rw [← he]
        refine ⟨?_, ?_⟩
        · intro _
          refine ⟨by simpa [List.length_set] using hilt, ?_, ?_⟩
          · rw [getD_set_ite, if_pos ⟨rfl, hilt⟩]
            rfl
          · intro j hj hjne
            rw [getD_set_ite, if_neg (by rintro ⟨he2, -⟩; exact hjne he2.symm)]
            exact h.2 hanyF j (by simpa [List.length_set] using hj)
        · intro hfalse
          exact Bool.noConfusion hfalse

theorem RecInv_dataStep (s : LoopManager) (x : ℚ) (h : RecInv s) :
    RecInv (dataStep s x) := by
  unfold dataStep
  split_ifs with hany
  · exact h
  · exact h

theorem drainRecording_fields (spm index : ℕ) :
    ∀ (evs : List Event) (s s2 : LoopManager) (evs2 : List Event),
      drainRecording spm index s evs = some (s2, evs2) →
      s2.status = s.status ∧ s2.anyRecording = s.anyRecording ∧
        s2.recordingAtIndex = s.recordingAtIndex ∧ s2.lengths = s.lengths := by
  intro evs
  induction evs with
  | nil => intro s s2 evs2 h; exact absurd h (by simp [drainRecording])
  | cons e evs ih =>
    intro s s2 evs2 h
    match e with
    | Event.cmd m => exact absurd h (by simp [drainRecording])
    | Event.clk (Sample.data x) =>
      have h2 : drainRecording spm index
          { s with loops := s.loops.set index ((s.loops.getD index []) ++ [x]) }
          evs = some (s2, evs2) := h
      have h3 := ih
        { s with loops := s.loops.set index ((s.loops.getD index []) ++ [x]) }
        s2 evs2 h2
      exact h3
    | Event.clk Sample.tick =>
      simp only [drainRecording] at h
      by_cases hmod : (s.loops.getD index []).length % spm = 0
      · rw [if_pos hmod] at h
        injection h with h'
        injection h' with ha hb
        rw [← ha]
        exact ⟨rfl, rfl, rfl, rfl⟩
      · rw [if_neg hmod] at h
        cases h
    | Event.clk Sample.preTick => exact absurd h (by simp [drainRecording])

theorem RecInv_finishRecordingLoop (spm : ℕ) (s s2 : LoopManager)
    (evs evs2 : List Event) (h : RecInv s)
    (hfin : finishRecordingLoop spm s evs = some (s2, evs2)) :
    RecInv s2 ∧ s2.anyRecording = false := by
  unfold finishRecordingLoop at hfin
  by_cases hrec : s.status.getD s.recordingAtIndex LoopStatus.Empty
      = LoopStatus.RecordEnd
  · rw [if_pos hrec] at hfin
    obtain ⟨hst, hany, hri, -⟩ :=
      drainRecording_fields spm s.recordingAtIndex evs _ s2 evs2 hfin
    have hl : s.recordingAtIndex < s.status.length := by
      by_contra hcon
      rw [List.getD_eq_getElem?_getD, List.getElem?_eq_none (by omega)] at hrec
      exact absurd hrec (by simp)
    refine ⟨?_, hany⟩
    unfold RecInv
    rw [hst, hany, hri]
    refine ⟨?_, ?_⟩
    · intro hfalse
      exact Bool.noConfusion hfalse
    · intro _ j hj
      rw [getD_set_ite]
      split_ifs with hcase
      · rfl
      · have hjne : j ≠ s.recordingAtIndex := by
          intro he
          exact hcase ⟨he.symm, hl⟩
        cases hany2 : s.anyRecording with
        | true =>
          obtain ⟨-, -, hc⟩ := h.1 hany2
          exact hc j (by simpa [List.length_set] using hj) hjne
        | false =>
          have hbusy := h.2 hany2 s.recordingAtIndex hl
          rw [hrec] at hbusy
          exact Bool.noConfusion hbusy
  · rw [if_neg hrec] at hfin
    cases hfin

theorem increment_some (st0 : LoopStatus) (len : ℕ) (st : LoopStatus)
    (h : st0.increment len = some st) :
    (∃ m, st0 = LoopStatus.On m) ∧ (∃ m2, st = LoopStatus.On m2) ∧ 0 < len := by
  cases st0 with
  | On m =>
    unfold LoopStatus.increment at h
    dsimp only at h
    by_cases hlen : len = 0
    · rw [if_pos hlen] at h
      cases h
    · rw [if_neg hlen] at h
      injection h with he
      exact ⟨⟨m, rfl⟩, ⟨(m + 1) % len, he.symm⟩, by omega⟩
  | Off => exact absurd h (by simp [LoopStatus.increment])
  | RecordStart => exact absurd h (by simp [LoopStatus.increment])
  | Recording => exact absurd h (by simp [LoopStatus.increment])
  | RecordEnd => exact absurd h (by simp [LoopStatus.increment])
  | Empty => exact absurd h (by simp [LoopStatus.increment])

theorem RecInv_incrementAll :
    ∀ (lst : List (ℕ × ℕ)) (s s2 : LoopManager),
      RecInv s → incrementAll lst s = some s2 → RecInv s2 := by
  intro lst
  induction lst with
  | nil =>
    intro s s2 h hinc
    injection hinc with he
    rw [← he]
    exact h
  | cons oi rest ih =>
    intro s s2 h hinc
    simp only [incrementAll] at hinc
    cases hincr : (s.status.getD oi.2 LoopStatus.Empty).increment
        (s.lengths.getD oi.2 0) with
    | none =>
      rw [hincr] at hinc
      cases hinc
    | some st =>
      rw [hincr] at hinc
      obtain ⟨⟨m, hcur⟩, ⟨m2, hst⟩, -⟩ := increment_some _ _ _ hincr
      have h' : RecInv { s with status := s.status.set oi.2 st } :=
        RecInvOn_set_nonbusy _ _ _ _ _ (by rw [hst]; rfl) (by rw [hcur]; rfl) h
      exact ih _ s2 h' hinc

theorem RecInv_enqueueGo (spm : ℕ) (active : List (ℕ × ℕ)) (pending : Bool) :
    ∀ (n i : ℕ) (s s1 : LoopManager) (evs evs1 : List Event),
      RecInv s → enqueueGo spm active pending i n s evs = some (s1, evs1) →
      RecInv s1 := by
  intro n
  induction n with
  | zero =>
    intro i s s1 evs evs1 h hgo
    injection hgo with he
    injection he with ha hb
    rw [← ha]
    exact h
  | succ n ih =>
    intro i s s1 evs evs1 h hgo
    simp only [enqueueGo] at hgo
    by_cases hcond : pending = true ∧ i = spm / 2
    · rw [if_pos hcond] at hgo
      cases hfin : finishRecordingLoop spm (mixPush spm active s i) evs with
      | none =>
        rw [hfin] at hgo
        cases hgo
      | some p =>
        rw [hfin] at hgo
        dsimp only at hgo
        have hfin2 := RecInv_finishRecordingLoop spm (mixPush spm active s i)
          p.1 evs p.2 h (by rw [hfin])
        exact ih (i + 1) p.1 s1 p.2 evs1 hfin2.1 hgo
    · rw [if_neg hcond] at hgo
      exact ih (i + 1) (mixPush spm active s i) s1 evs evs1 h hgo

theorem RecInv_enqueueLoops (spm : ℕ) (s s2 : LoopManager)
    (evs evs2 : List Event) (h : RecInv s)
    (henq : enqueueLoops spm s evs = some (s2, evs2)) : RecInv s2 := by
  unfold enqueueLoops at henq
  cases hgo : enqueueGo spm (activeLoops s)
      (s.status.getD s.recordingAtIndex LoopStatus.Empty
        == LoopStatus.RecordEnd) 0 spm s evs with
  | none =>
    rw [hgo] at henq
    cases henq
  | some p =>
    rw [hgo] at henq
    dsimp only at henq
    cases hinc : incrementAll (activeLoops s) p.1 with
    | none =>
      rw [hinc] at henq
      cases henq
    | some s3 =>
      rw [hinc] at henq
      injection henq with he
      injection he with he1 he2
      rw [← he1]
      have h1 : RecInv p.1 :=
        RecInv_enqueueGo spm (activeLoops s) _ spm 0 s p.1 evs p.2 h
          (by rw [hgo])
      exact RecInv_incrementAll (activeLoops s) p.1 s3 h1 hinc

theorem RecInv_runEngineAux (spm : ℕ) :
    ∀ (n : ℕ) (evs : List Event) (s s1 : LoopManager),
      RecInv s → runEngineAux spm n s evs = some s1 → RecInv s1 := by
  intro n
  induction n with
  | zero =>
    intro evs s s1 h hrun
    cases evs with
    | nil =>
      injection hrun with he
      rw [← he]
      exact h
    | cons e evs =>
      simp only [runEngineAux] at hrun
      cases hrun
  | succ n ih =>
    intro evs s s1 h hrun
    cases evs with
    | nil =>
      injection hrun with he
      rw [← he]
      exact h
    | cons e evs =>
      match e with
      | Event.cmd m =>
        exact ih evs _ s1 (RecInv_checkMessages s m h) hrun
      | Event.clk (Sample.data x) =>
        exact ih evs _ s1 (RecInv_dataStep s x h) hrun
      | Event.clk Sample.tick =>
        simp only [runEngineAux] at hrun
        cases hup : updateRecordingStatus s with
        | none =>
          rw [hup] at hrun
          cases hrun
        | some s2 =>
          rw [hup] at hrun
          exact ih evs s2 s1 (RecInv_updateRecordingStatus s s2 h hup) hrun
      | Event.clk Sample.preTick =>
        simp only [runEngineAux] at hrun
        cases henq : enqueueLoops spm s evs with
        | none =>
          rw [henq] at hrun
          cases hrun
        | some p =>
          rw [henq] at hrun
          exact ih p.2 p.1 s1
            (RecInv_enqueueLoops spm s p.1 evs p.2 h (by rw [henq])) hrun

theorem RecInv_mkLoopManager (numLoops spb : ℕ) (bigTick littleTick : List ℚ)
    (s0 : LoopManager)
    (h0 : mkLoopManager numLoops spb bigTick littleTick = some s0) :
    RecInv s0 := by
  unfold mkLoopManager at h0
  by_cases hlen : (metronome spb bigTick littleTick).length = spb * 4
  · rw [if_pos hlen] at h0
    injection h0 with he
    rw [← he]
    refine ⟨?_, ?_⟩
    · intro hfalse
      exact Bool.noConfusion hfalse
    · intro _ j hj
      rw [getD_set_ite]
      split_ifs with hcase
      · rfl
      · rw [getD_replicate_self]
        rfl
  · rw [if_neg hlen] at h0
    cases h0

/-- Claim C1 counterexample: from the initial state (three registers,
one sample per beat), the two commands ToggleLoop 1 then ToggleLoop 2
both arrive before any Tick, so both empty loops are armed and two loops
are in the set Recording, RecordStart, RecordEnd at once — armed count 2
in place of the claimed at most one. -/
theorem c1_counterexample :
    ((mkLoopManager 3 1 [(1 : ℚ)] []).bind (fun s0 =>
        runEngine 4 s0 [Event.cmd (LoopMessage.toggleLoop 1),
          Event.cmd (LoopMessage.toggleLoop 2)])).map armedCount
      = some 2 := by decide

/-- Claim C1 (amended): at every point of any execution of the engine
from its initial state, at most one loop across the register has status
Recording or RecordEnd.  RecordStart must be excluded: the guard for
arming an Empty loop only checks any_recording, which is still clear
before the next Tick, so several loops can sit in RecordStart at once. -/
theorem c1_single_recording (spm numLoops spb : ℕ)
    (bigTick littleTick : List ℚ) (s0 s : LoopManager) (evs : List Event)
    (h0 : mkLoopManager numLoops spb bigTick littleTick = some s0)
    (hrun : runEngine spm s0 evs = some s) :
    busyCount s ≤ 1 := by
  have h1 := RecInv_mkLoopManager numLoops spb bigTick littleTick s0 h0
  have h2 := RecInv_runEngineAux spm evs.length evs s0 s h1 hrun
  exact RecInv.busyCount_le_one s h2

/-- Witness for c1_single_recording on a concrete two-register startup
state with an empty event list. -/
theorem c1_single_recording_witness :
    mkLoopManager 2 1 [(1 : ℚ)] []
        = some
            { loops := [[(1 : ℚ), 0, 0, 0], []],
              lengths := [1, 0],
              status := [LoopStatus.On 0, LoopStatus.Empty],
              anyRecording := false,
              recordingAtIndex := 0,
              playback := [(1 : ℚ), 0, 0, 0] } ∧
      runEngine 4
          { loops := [[(1 : ℚ), 0, 0, 0], []],
            lengths := [1, 0],
            status := [LoopStatus.On 0, LoopStatus.Empty],
            anyRecording := false,
            recordingAtIndex := 0,
            playback := [(1 : ℚ), 0, 0, 0] } []
        = some
            { loops := [[(1 : ℚ), 0, 0, 0], []],
              lengths := [1, 0],
              status := [LoopStatus.On 0, LoopStatus.Empty],
              anyRecording := false,
              recordingAtIndex := 0,
              playback := [(1 : ℚ), 0, 0, 0] } ∧
      busyCount
          { loops := [[(1 : ℚ), 0, 0, 0], []],
            lengths := [1, 0],
            status := [LoopStatus.On 0, LoopStatus.Empty],
            anyRecording := false,
            recordingAtIndex := 0,
            playback := [(1 : ℚ), 0, 0, 0] } ≤ 1 :=
  ⟨by decide, by decide,
    c1_single_recording 4 2 1 [(1 : ℚ)] []
      { loops := [[(1 : ℚ), 0, 0, 0], []],
        lengths := [1, 0],
        status := [LoopStatus.On 0, LoopStatus.Empty],
        anyRecording := false,
        recordingAtIndex := 0,
        playback := [(1 : ℚ), 0, 0, 0] }
      { loops := [[(1 : ℚ), 0, 0, 0], []],
        lengths := [1, 0],
        status := [LoopStatus.On 0, LoopStatus.Empty],
        anyRecording := false,
        recordingAtIndex := 0,
        playback := [(1 : ℚ), 0, 0, 0] } [] (by decide) (by decide)⟩

/-- The items consumed by the worker loop are an interleaving of the
command channel contents and the clock stream, each consumed in
order. -/
inductive Interleave : List Event → List LoopMessage → List Sample → Prop where
  | nil : Interleave [] [] []
  | cmd (m : LoopMessage) (evs : List Event) (cmds : List LoopMessage)
      (tr : List Sample) :
      Interleave evs cmds tr → Interleave (Event.cmd m :: evs) (m :: cmds) tr
  | clk (e : Sample) (evs : List Event) (cmds : List LoopMessage)
      (tr : List Sample) :
      Interleave evs cmds tr → Interleave (Event.clk e :: evs) cmds (e :: tr)

/-- Buffer and length bookkeeping of a single loop as a function of its
status, at clock phase c (the number of Data samples consumed since the
last Tick): playing and stopped loops hold whole measures with the
offset in range, empty and armed loops are empty, and the recording (or
pending) loop holds its whole measures plus the c samples of the
current measure. -/
def loopClause (spm c : ℕ) : LoopStatus → ℕ → ℕ → Prop
  | LoopStatus.On off, len, L => len = L * spm ∧ off < L
  | LoopStatus.Off, len, L => len = L * spm ∧ 1 ≤ L
  | LoopStatus.Empty, len, L => len = 0 ∧ L = 0
  | LoopStatus.RecordStart, len, L => len = 0 ∧ L = 0
  | LoopStatus.Recording, len, L => len = L * spm + c
  | LoopStatus.RecordEnd, len, L => len = L * spm + c

/-- The full engine invariant at clock phase c: the three registers have
equal length, the single-recording invariant holds, and every loop
satisfies its per-status bookkeeping clause. -/
def LoopInv (spm c : ℕ) (s : LoopManager) : Prop :=
  s.loops.length = s.status.length ∧ s.lengths.length = s.status.length ∧
  RecInv s ∧
  ∀ j, j < s.status.length →
    loopClause spm c (s.status.getD j LoopStatus.Empty)
      ((s.loops.getD j []).length) (s.lengths.getD j 0)

theorem LoopInv_of_fields_eq (spm c : ℕ) (s s2 : LoopManager)
    (h1 : s2.loops = s.loops) (h2 : s2.lengths = s.lengths)
    (h3 : s2.status = s.status) (h4 : s2.anyRecording = s.anyRecording)
    (h5 : s2.recordingAtIndex = s.recordingAtIndex)
    (h : LoopInv spm c s) : LoopInv spm c s2 := by
  unfold LoopInv RecInv RecInvOn at h ⊢
  rw [h1, h2, h3, h4, h5]
  exact h

theorem mixRun_fields (spm : ℕ) (active : List (ℕ × ℕ)) :
    ∀ (n i : ℕ) (s : LoopManager),
      (mixRun spm active i n s).loops = s.loops ∧
      (mixRun spm active i n s).lengths = s.lengths ∧
      (mixRun spm active i n s).status = s.status ∧
      (mixRun spm active i n s).anyRecording = s.anyRecording ∧
      (mixRun spm active i n s).recordingAtIndex = s.recordingAtIndex := by
  intro n
  induction n with
  | zero => intro i s; exact ⟨rfl, rfl, rfl, rfl, rfl⟩
  | succ n ih =>
    intro i s
    exact ih (i + 1) (mixPush spm active s i)

theorem increment_char (st0 : LoopStatus) (len : ℕ) (st : LoopStatus)
    (h : st0.increment len = some st) :
    ∃ m, st0 = LoopStatus.On m ∧ st = LoopStatus.On ((m + 1) % len) ∧
      0 < len := by
  cases st0 with
  | On m =>
    unfold LoopStatus.increment at h
    dsimp only at h
    by_cases hlen : len = 0
    · rw [if_pos hlen] at h
      cases h
    · rw [if_neg hlen] at h
      injection h with he
      exact ⟨m, rfl, he.symm, by omega⟩
  | Off => exact absurd h (by simp [LoopStatus.increment])
  | RecordStart => exact absurd h (by simp [LoopStatus.increment])
  | Recording => exact absurd h (by simp [LoopStatus.increment])
  | RecordEnd => exact absurd h (by simp [LoopStatus.increment])
  | Empty => exact absurd h (by simp [LoopStatus.increment])

theorem incrementAll_char :
    ∀ (lst : List (ℕ × ℕ)) (s s2 : LoopManager),
      incrementAll lst s = some s2 →
      s2.loops = s.loops ∧ s2.lengths = s.lengths ∧
      s2.anyRecording = s.anyRecording ∧
      s2.recordingAtIndex = s.recordingAtIndex ∧
      s2.status.length = s.status.length ∧
      ∀ j, s2.status.getD j LoopStatus.Empty
            = s.status.getD j LoopStatus.Empty ∨
        (∃ m m2, s.status.getD j LoopStatus.Empty = LoopStatus.On m ∧
          s2.status.getD j LoopStatus.Empty = LoopStatus.On m2 ∧
          m2 < s.lengths.getD j 0) := by
  intro lst
  induction lst with
  | nil =>
    intro s s2 h
    injection h with he
    rw [← he]
    exact ⟨rfl, rfl, rfl, rfl, rfl, fun j => Or.inl rfl⟩
  | cons oi rest ih =>
    intro s s2 h
    simp only [incrementAll] at h
    cases hincr : (s.status.getD oi.2 LoopStatus.Empty).increment
        (s.lengths.getD oi.2 0) with
    | none =>
      rw [hincr] at h
      cases h
    | some st =>
      rw [hincr] at h
      obtain ⟨m, hcur, hst, hlen⟩ := increment_char _ _ _ hincr
      obtain ⟨i1, i2, i3, i4, i5, i6⟩ :=
        ih { s with status := s.status.set oi.2 st } s2 h
      refine ⟨i1, i2, i3, i4, by simpa [List.length_set] using i5, ?_⟩
      intro j
      rcases i6 j with hun | ⟨a, b, ha, hb, hbnd⟩
      · rw [hun]
        dsimp only
        rw [getD_set_ite]
        split_ifs with hcase
        · right
          refine ⟨m, (m + 1) % s.lengths.getD oi.2 0, ?_, ?_, ?_⟩
          · rw [← hcase.1]
            exact hcur
          · exact hst
          · rw [← hcase.1]
            exact Nat.mod_lt _ hlen
        · left
          rfl
      · dsimp only at ha hb hbnd
        rw [getD_set_ite] at ha
        split_ifs at ha with hcase
        · right
          rw [hst] at ha
          injection ha with hmm
          refine ⟨m, b, ?_, hb, ?_⟩
          · rw [← hcase.1]
            exact hcur
          · exact hbnd
        · right
          exact ⟨a, b, ha, hb, hbnd⟩

theorem incrementAll_inv (spm c : ℕ) (lst : List (ℕ × ℕ))
    (s s2 : LoopManager) (h : LoopInv spm c s)
    (hinc : incrementAll lst s = some s2) : LoopInv spm c s2 := by
  obtain ⟨hsz1, hsz2, hrec, hcl⟩ := h
  obtain ⟨i1, i2, i3, i4, i5, i6⟩ := incrementAll_char lst s s2 hinc
  refine ⟨by rw [i1, i5, hsz1], by rw [i2, i5, hsz2], ?_, ?_⟩
  · exact RecInv_incrementAll lst s s2 hrec hinc
  · intro j hj
    rw [i1, i2]
    rcases i6 j with hun | ⟨m, m2, hm, hm2, hbnd⟩
    · rw [hun]
      exact hcl j (by rw [← i5]; exact hj)
    · rw [hm2]
      have := hcl j (by rw [← i5]; exact hj)
      rw [hm] at this
      exact ⟨this.1, hbnd⟩

theorem drainRecording_some_char (spm index : ℕ) :
    ∀ (evs : List Event) (s s2 : LoopManager) (evs2 : List Event),
      index < s.loops.length →
      drainRecording spm index s evs = some (s2, evs2) →
      ∃ xs : List ℚ,
        evs = xs.map (fun x => Event.clk (Sample.data x))
          ++ Event.clk Sample.tick :: evs2 ∧
        s2 = { s with
          loops := s.loops.set index ((s.loops.getD index []) ++ xs) } := by
  intro evs
  induction evs with
  | nil => intro s s2 evs2 _ h; exact absurd h (by simp [drainRecording])
  | cons e evs ih =>
    intro s s2 evs2 hidx h
    match e with
    | Event.cmd m => exact absurd h (by simp [drainRecording])
    | Event.clk (Sample.data x) =>
      have h2 : drainRecording spm index
          { s with loops := s.loops.set index ((s.loops.getD index []) ++ [x]) }
          evs = some (s2, evs2) := h
      obtain ⟨xs, heq, hstate⟩ := ih
        { s with loops := s.loops.set index ((s.loops.getD index []) ++ [x]) }
        s2 evs2 (by simpa [List.length_set] using hidx) h2
      refine ⟨x :: xs, ?_, ?_⟩
      · rw [heq]
        simp
      · rw [hstate]
        have hg : (s.loops.set index ((s.loops.getD index []) ++ [x])).getD
              index [] = (s.loops.getD index []) ++ [x] :=
          getD_set_self _ _ _ _ hidx
        dsimp only
        rw [hg, List.set_set, List.append_assoc, List.singleton_append]
    | Event.clk Sample.tick =>
      simp only [drainRecording] at h
      by_cases hmod : (s.loops.getD index []).length % spm = 0
      · rw [if_pos hmod] at h
        injection h with h2
        injection h2 with ha hb
        refine ⟨[], by rw [hb]; rfl, ?_⟩
        rw [← ha, List.append_nil, set_getD_self]
      · rw [if_neg hmod] at h
        cases h
    | Event.clk Sample.preTick => exact absurd h (by simp [drainRecording])

theorem interleave_clk_prefix :
    ∀ (cs : List Sample) (evs2 evs : List Event)
      (cmds : List LoopMessage) (tr : List Sample),
      Interleave evs cmds tr → evs = cs.map Event.clk ++ evs2 →
      ∃ tr2, tr = cs ++ tr2 ∧ Interleave evs2 cmds tr2 := by
  intro cs
  induction cs with
  | nil =>
    intro evs2 evs cmds tr hint heq
    rw [List.map_nil, List.nil_append] at heq
    exact ⟨tr, rfl, heq ▸ hint⟩
  | cons ce cs ih =>
    intro evs2 evs cmds tr hint heq
    rw [List.map_cons, List.cons_append] at heq
    subst heq
    cases hint with
    | clk _ _ _ _ hint2 =>
      obtain ⟨tr2, htr, hint3⟩ := ih evs2 _ cmds _ hint2 rfl
      exact ⟨tr2, by rw [htr]; rfl, hint3⟩

theorem clocked_data_tick (spm B : ℕ) :
    ∀ (xs : List ℚ) (c : ℕ) (f : Bool) (tr2 : List Sample),
      Clocked spm B c f (xs.map Sample.data ++ Sample.tick :: tr2) →
      xs.length = spm - c ∧ c ≤ spm ∧ Clocked spm B 0 false tr2 := by
  intro xs
  induction xs with
  | nil =>
    intro c f tr2 h
    rw [List.map_nil, List.nil_append] at h
    cases h with
    | tick _ h2 => exact ⟨by simp, le_refl _, h2⟩
  | cons x xs ih =>
    intro c f tr2 h
    rw [List.map_cons, List.cons_append] at h
    cases h with
    | data _ _ _ _ hlt hiff h2 =>
      obtain ⟨hlen, hle, hcl⟩ := ih (c + 1) false tr2 h2
      refine ⟨?_, by omega, hcl⟩
      rw [List.length_cons, hlen]
      omega

theorem loopClause_change_c (spm c c2 : ℕ) (st : LoopStatus) (len L : ℕ)
    (hnb : isBusy st = false) (h : loopClause spm c st len L) :
    loopClause spm c2 st len L := by
  cases st with
  | Recording => simp [isBusy] at hnb
  | RecordEnd => simp [isBusy] at hnb
  | On m => exact h
  | Off => exact h
  | RecordStart => exact h
  | Empty => exact h

theorem LoopInv_set_status (spm c : ℕ) (s : LoopManager) (i : ℕ)
    (v : LoopStatus)
    (hrec2 : RecInv { s with status := s.status.set i v })
    (hclv : loopClause spm c v ((s.loops.getD i []).length)
      (s.lengths.getD i 0))
    (h : LoopInv spm c s) :
    LoopInv spm c { s with status := s.status.set i v } := by
  obtain ⟨hsz1, hsz2, hrec, hcl⟩ := h
  refine ⟨by simpa [List.length_set] using hsz1,
    by simpa [List.length_set] using hsz2, hrec2, ?_⟩
  intro j hj
  dsimp only
  rw [getD_set_ite]
  split_ifs with hcase
  · rw [← hcase.1]
    exact hclv
  · exact hcl j (by simpa [List.length_set] using hj)

theorem getD_eq_default_of_oob {α : Type _} (l : List α) (i : ℕ) (d : α)
    (h : l.length ≤ i) : l.getD i d = d := by
  rw [List.getD_eq_getElem?_getD, List.getElem?_eq_none h]
  rfl

theorem LoopInv_checkMessages (spm c : ℕ) (s : LoopManager)
    (m : LoopMessage) (h : LoopInv spm c s) :
    LoopInv spm c (checkMessages s m) := by
  have hrec2 := RecInv_checkMessages s m h.2.2.1
  obtain ⟨hsz1, hsz2, hrec, hcl⟩ := h
  cases m with
  | toggleLoop i =>
    unfold checkMessages at hrec2 ⊢
    dsimp only at hrec2 ⊢
    cases hst : s.status.getD i LoopStatus.Empty with
    | Off =>
      rw [hst] at hrec2
      have hilt : i < s.status.length := by
        by_contra hcon
        rw [getD_eq_default_of_oob _ _ _ (by omega)] at hst
        cases hst
      have hcli := hcl i hilt
      rw [hst] at hcli
      exact LoopInv_set_status spm c s i (LoopStatus.On 0) hrec2
        ⟨hcli.1, by have h2 := hcli.2; omega⟩ ⟨hsz1, hsz2, hrec, hcl⟩
    | On m2 =>
      rw [hst] at hrec2
      have hilt : i < s.status.length := by
        by_contra hcon
        rw [getD_eq_default_of_oob _ _ _ (by omega)] at hst
        cases hst
      have hcli := hcl i hilt
      rw [hst] at hcli
      exact LoopInv_set_status spm c s i LoopStatus.Off hrec2
        ⟨hcli.1, by have h2 := hcli.2; omega⟩ ⟨hsz1, hsz2, hrec, hcl⟩
    | Empty =>
      rw [hst] at hrec2
      split_ifs with hany
      · rw [if_pos hany] at hrec2
        exact ⟨hsz1, hsz2, hrec, hcl⟩
      · rw [if_neg hany] at hrec2
        by_cases hilt : i < s.status.length
        · have hcli := hcl i hilt
          rw [hst] at hcli
          exact LoopInv_set_status spm c s i LoopStatus.RecordStart hrec2
            hcli ⟨hsz1, hsz2, hrec, hcl⟩
        · have hset : s.status.set i LoopStatus.RecordStart = s.status :=
            List.set_eq_of_length_le (by omega)
          refine ⟨by simpa [hset] using hsz1, by simpa [hset] using hsz2,
            ?_, ?_⟩
          · unfold RecInv RecInvOn at hrec ⊢
            dsimp only
            rw [hset]
            exact hrec
          · intro j hj
            dsimp only
            rw [hset]
            exact hcl j (by simpa [hset] using hj)
    | Recording =>
      rw [hst] at hrec2
      exact ⟨hsz1, hsz2, hrec, hcl⟩
    | RecordStart =>
      rw [hst] at hrec2
      exact ⟨hsz1, hsz2, hrec, hcl⟩
    | RecordEnd =>
      rw [hst] at hrec2
      exact ⟨hsz1, hsz2, hrec, hcl⟩
  | stopRecording =>
    unfold checkMessages at hrec2 ⊢
    dsimp only at hrec2 ⊢
    split_ifs with hany
    · rw [if_pos hany] at hrec2
      obtain ⟨ha, hb, -⟩ := hrec.1 hany
      have hcli := hcl s.recordingAtIndex ha
      have hclv : loopClause spm c LoopStatus.RecordEnd
          ((s.loops.getD s.recordingAtIndex []).length)
          (s.lengths.getD s.recordingAtIndex 0) := by
        cases hstat : s.status.getD s.recordingAtIndex LoopStatus.Empty with
        | Recording => rw [hstat] at hcli; exact hcli
        | RecordEnd => rw [hstat] at hcli; exact hcli
        | On m2 => rw [hstat] at hb; simp [isBusy] at hb
        | Off => rw [hstat] at hb; simp [isBusy] at hb
        | RecordStart => rw [hstat] at hb; simp [isBusy] at hb
        | Empty => rw [hstat] at hb; simp [isBusy] at hb
      exact LoopInv_set_status spm c s s.recordingAtIndex
        LoopStatus.RecordEnd hrec2 hclv ⟨hsz1, hsz2, hrec, hcl⟩
    · rw [if_neg hany] at hrec2
      exact ⟨hsz1, hsz2, hrec, hcl⟩

theorem LoopInv_dataStep (spm c : ℕ) (s : LoopManager) (x : ℚ)
    (h : LoopInv spm c s) : LoopInv spm (c + 1) (dataStep s x) := by
  obtain ⟨hsz1, hsz2, hrec, hcl⟩ := h
  unfold dataStep
  split_ifs with hany
  · obtain ⟨ha, hb, hc⟩ := hrec.1 hany
    have hreclt : s.recordingAtIndex < s.loops.length := by omega
    refine ⟨by simpa [List.length_set] using hsz1, hsz2, hrec, ?_⟩
    intro j hj
    dsimp only
    rw [getD_set_ite]
    split_ifs with hcase
    · rw [← hcase.1]
      have hcli := hcl s.recordingAtIndex ha
      cases hstat : s.status.getD s.recordingAtIndex LoopStatus.Empty with
      | Recording =>
        rw [hstat] at hcli
        simp only [loopClause, List.length_append, List.length_cons,
          List.length_nil] at hcli ⊢
        omega
      | RecordEnd =>
        rw [hstat] at hcli
        simp only [loopClause, List.length_append, List.length_cons,
          List.length_nil] at hcli ⊢
        omega
      | On m2 => rw [hstat] at hb; simp [isBusy] at hb
      | Off => rw [hstat] at hb; simp [isBusy] at hb
      | RecordStart => rw [hstat] at hb; simp [isBusy] at hb
      | Empty => rw [hstat] at hb; simp [isBusy] at hb
    · have hjne : j ≠ s.recordingAtIndex := by
        intro he
        exact hcase ⟨he.symm, hreclt⟩
      exact loopClause_change_c spm c (c + 1) _ _ _ (hc j hj hjne) (hcl j hj)
  · have hanyF : s.anyRecording = false := by
      cases hx : s.anyRecording
      · rfl
      · exact absurd hx hany
    refine ⟨hsz1, hsz2, hrec, ?_⟩
    intro j hj
    exact loopClause_change_c spm c (c + 1) _ _ _ (hrec.2 hanyF j hj) (hcl j hj)

theorem LoopInv_updateRecordingStatus (spm : ℕ) (s s1 : LoopManager)
    (h : LoopInv spm spm s) (hup : updateRecordingStatus s = some s1) :
    LoopInv spm 0 s1 := by
  obtain ⟨hsz1, hsz2, hrec, hcl⟩ := h
  have hrec1 := RecInv_updateRecordingStatus s s1 hrec hup
  unfold updateRecordingStatus at hup
  by_cases hany : s.anyRecording = true
  · rw [if_pos hany] at hup
    injection hup with he
    rw [← he] at hrec1 ⊢
    obtain ⟨ha, hb, hc⟩ := hrec.1 hany
    have hreclt : s.recordingAtIndex < s.lengths.length := by omega
    refine ⟨hsz1, by simpa [List.length_set] using hsz2, hrec1, ?_⟩
    intro j hj
    dsimp only
    rw [getD_set_ite]
    split_ifs with hcase
    · rw [← hcase.1]
      have hcli := hcl s.recordingAtIndex ha
      cases hstat : s.status.getD s.recordingAtIndex LoopStatus.Empty with
      | Recording =>
        rw [hstat] at hcli
        simp only [loopClause] at hcli ⊢
        rw [Nat.succ_mul]
        omega
      | RecordEnd =>
        rw [hstat] at hcli
        simp only [loopClause] at hcli ⊢
        rw [Nat.succ_mul]
        omega
      | On m2 => rw [hstat] at hb; simp [isBusy] at hb
      | Off => rw [hstat] at hb; simp [isBusy] at hb
      | RecordStart => rw [hstat] at hb; simp [isBusy] at hb
      | Empty => rw [hstat] at hb; simp [isBusy] at hb
    · have hjne : j ≠ s.recordingAtIndex := by
        intro he
        exact hcase ⟨he.symm, hreclt⟩
      exact loopClause_change_c spm spm 0 _ _ _ (hc j hj hjne) (hcl j hj)
  · rw [if_neg hany] at hup
    have hanyF : s.anyRecording = false := by
      cases hx : s.anyRecording
      · rfl
      · exact absurd hx hany
    cases hfind : s.status.findIdx? (fun st =>
        st == LoopStatus.RecordEnd || st == LoopStatus.RecordStart) with
    | none =>
      rw [hfind] at hup
      dsimp only at hup
      injection hup with he
      rw [← he]
      refine ⟨hsz1, hsz2, hrec, ?_⟩
      intro j hj
      exact loopClause_change_c spm spm 0 _ _ _ (hrec.2 hanyF j hj) (hcl j hj)
    | some i =>
      rw [hfind] at hup
      dsimp only at hup
      obtain ⟨-, hilt, hpi⟩ :=
        findIdx?_spec (fun st =>
          st == LoopStatus.RecordEnd || st == LoopStatus.RecordStart)
          LoopStatus.Empty s.status 0 i hfind
      rw [Nat.sub_zero] at hilt hpi
      by_cases hre : (s.status.getD i LoopStatus.Empty
          == LoopStatus.RecordEnd) = true
      · rw [if_pos hre] at hup
        cases hup
      · rw [if_neg hre] at hup
        injection hup with he
        rw [← he] at hrec1 ⊢
        have hstart : s.status.getD i LoopStatus.Empty
            = LoopStatus.RecordStart := by
          simp only [Bool.or_eq_true] at hpi
          rcases hpi with h1 | h1
          · exact absurd h1 hre
          · exact eq_of_beq h1
        have hcli := hcl i hilt
        rw [hstart] at hcli
        refine ⟨by simpa [List.length_set] using hsz1,
          by simpa [List.length_set] using hsz2, hrec1, ?_⟩
        intro j hj
        dsimp only
        rw [getD_set_ite]
        split_ifs with hcase
        · rw [← hcase.1]
          rw [hcli.1, hcli.2]
          simp [loopClause]
        · have hjne : j ≠ i := by
            intro he2
            exact hcase ⟨he2.symm, hilt⟩
          have hj2 : j < s.status.length := by
            simpa [List.length_set] using hj
          exact loopClause_change_c spm spm 0 _ _ _ (hrec.2 hanyF j hj2)
            (hcl j hj2)

theorem LoopInv_finish_state (spm B : ℕ) (hBs : B < spm)
    (s : LoopManager) (xs : List ℚ) (pb : List ℚ)
    (hinv : LoopInv spm (spm - B) s)
    (hre : s.status.getD s.recordingAtIndex LoopStatus.Empty
      = LoopStatus.RecordEnd)
    (hany : s.anyRecording = true)
    (hxB : xs.length = B) :
    LoopInv spm 0
      { loops := s.loops.set s.recordingAtIndex
          ((s.loops.getD s.recordingAtIndex []) ++ xs),
        lengths := s.lengths.set s.recordingAtIndex
          (s.lengths.getD s.recordingAtIndex 0 + 1),
        status := s.status.set s.recordingAtIndex (LoopStatus.On 0),
        anyRecording := false,
        recordingAtIndex := s.recordingAtIndex,
        playback := pb } := by
  obtain ⟨hsz1, hsz2, hrec, hcl⟩ := hinv
  obtain ⟨ha, hb, hc⟩ := hrec.1 hany
  have hidx : s.recordingAtIndex < s.loops.length := by omega
  have hlenlt : s.recordingAtIndex < s.lengths.length := by omega
  have hclRec := hcl s.recordingAtIndex ha
  rw [hre] at hclRec
  simp only [loopClause] at hclRec
  unfold LoopInv
  dsimp only
  refine ⟨by simp [List.length_set, hsz1], by simp [List.length_set, hsz2],
    ?_, ?_⟩
  · unfold RecInv RecInvOn
    dsimp only
    refine ⟨fun hfalse => Bool.noConfusion hfalse, ?_⟩
    intro _ j hj
    rw [getD_set_ite]
    split_ifs with hcase
    · rfl
    · have hjne : j ≠ s.recordingAtIndex := fun he2 => hcase ⟨he2.symm, ha⟩
      exact hc j (by simpa [List.length_set] using hj) hjne
  · intro j hj
    have hj2 : j < s.status.length := by simpa [List.length_set] using hj
    by_cases hje : j = s.recordingAtIndex
    · subst hje
      rw [getD_set_ite, if_pos ⟨rfl, hj2⟩, getD_set_ite, if_pos ⟨rfl, hidx⟩,
        getD_set_ite, if_pos ⟨rfl, hlenlt⟩]
      simp only [loopClause, List.length_append]
      have hsm : (s.lengths.getD s.recordingAtIndex 0 + 1) * spm
          = s.lengths.getD s.recordingAtIndex 0 * spm + spm :=
        Nat.succ_mul _ _
      exact ⟨by omega, by omega⟩
    · rw [getD_set_ite, if_neg (fun hcase => hje hcase.1.symm),
        getD_set_ite, if_neg (fun hcase => hje hcase.1.symm),
        getD_set_ite, if_neg (fun hcase => hje hcase.1.symm)]
      exact loopClause_change_c spm (spm - B) 0 _ _ _ (hc j hj2 hje) (hcl j hj2)

theorem enqueueLoops_inv (spm B : ℕ) (hB : 0 < B) (hBs : B < spm)
    (s p1 : LoopManager) (evs p2 : List Event)
    (cmds : List LoopMessage) (tr : List Sample)
    (hinv : LoopInv spm (spm - B) s)
    (hint : Interleave evs cmds tr)
    (hclk : Clocked spm B (spm - B) true tr)
    (henq : enqueueLoops spm s evs = some (p1, p2)) :
    ∃ c2 f2 cmds2 tr2, Interleave p2 cmds2 tr2 ∧
      Clocked spm B c2 f2 tr2 ∧ LoopInv spm c2 p1 := by
  have hspm : 0 < spm := by omega
  unfold enqueueLoops at henq
  by_cases hpend : (s.status.getD s.recordingAtIndex LoopStatus.Empty
      == LoopStatus.RecordEnd) = true
  · rw [hpend] at henq
    rw [enqueueGo_split spm (activeLoops s) hspm spm 0 s evs (by omega)
      (by omega)] at henq
    simp only [Nat.sub_zero] at henq
    have hre : s.status.getD s.recordingAtIndex LoopStatus.Empty
        = LoopStatus.RecordEnd := eq_of_beq hpend
    have hany : s.anyRecording = true := by
      by_contra hcon
      have hanyF : s.anyRecording = false := by
        cases hx : s.anyRecording
        · rfl
        · exact absurd hx hcon
      by_cases hlt : s.recordingAtIndex < s.status.length
      · have hnb := hinv.2.2.1.2 hanyF s.recordingAtIndex hlt
        rw [hre] at hnb
        simp [isBusy] at hnb
      · rw [getD_eq_default_of_oob _ _ _ (by omega)] at hre
        cases hre
    have ha : s.recordingAtIndex < s.status.length := (hinv.2.2.1.1 hany).1
    have hidx : s.recordingAtIndex < s.loops.length := by
      have hsz1 := hinv.1
      omega
    cases hF : finishRecordingLoop spm
        (mixRun spm (activeLoops s) 0 (spm / 2 + 1) s) evs with
    | none =>
      rw [hF] at henq
      dsimp only at henq
      cases henq
    | some q =>
      obtain ⟨q1, q2⟩ := q
      rw [hF] at henq
      dsimp only at henq
      cases hIA : incrementAll (activeLoops s)
          (mixRun spm (activeLoops s) (spm / 2 + 1) (spm - (spm / 2 + 1)) q1)
          with
      | none =>
        rw [hIA] at henq
        cases henq
      | some sI =>
        rw [hIA] at henq
        dsimp only at henq
        injection henq with he
        injection he with he1 he2
        obtain ⟨hmfl, hmfL, hmfs, hmfa, hmfr⟩ :=
          mixRun_fields spm (activeLoops s) (spm / 2 + 1) 0 s
        unfold finishRecordingLoop at hF
        rw [hmfs, hmfr, hmfl, hmfL] at hF
        rw [if_pos hre] at hF
        obtain ⟨xs, hevseq, hq1⟩ :=
          drainRecording_some_char spm s.recordingAtIndex evs
            { loops := s.loops,
              lengths := s.lengths.set s.recordingAtIndex
                (s.lengths.getD s.recordingAtIndex 0 + 1),
              status := s.status.set s.recordingAtIndex (LoopStatus.On 0),
              anyRecording := false,
              recordingAtIndex := s.recordingAtIndex,
              playback :=
                (mixRun spm (activeLoops s) 0 (spm / 2 + 1) s).playback }
            q1 q2 hidx hF
        have hevseq2 : evs
            = (xs.map Sample.data ++ [Sample.tick]).map Event.clk ++ q2 := by
          rw [hevseq]
          simp [Function.comp]
        obtain ⟨tr2, htr, hint2⟩ := interleave_clk_prefix
          (xs.map Sample.data ++ [Sample.tick]) q2 evs cmds tr hint hevseq2
        have htr2 : tr = xs.map Sample.data ++ Sample.tick :: tr2 := by
          rw [htr, List.append_assoc, List.singleton_append]
        have hclk2 : Clocked spm B (spm - B) true
            (xs.map Sample.data ++ Sample.tick :: tr2) := by
          rw [← htr2]
          exact hclk
        obtain ⟨hxlen, hcle, hclk3⟩ :=
          clocked_data_tick spm B xs (spm - B) true tr2 hclk2
        have hxB : xs.length = B := by omega
        have hinvQ : LoopInv spm 0 q1 := by
          rw [hq1]
          exact LoopInv_finish_state spm B hBs s xs _ hinv hre hany hxB
        obtain ⟨g1, g2, g3, g4, g5⟩ := mixRun_fields spm (activeLoops s)
          (spm - (spm / 2 + 1)) (spm / 2 + 1) q1
        have hinvF : LoopInv spm 0 (mixRun spm (activeLoops s) (spm / 2 + 1)
            (spm - (spm / 2 + 1)) q1) :=
          LoopInv_of_fields_eq spm 0 q1 _ g1 g2 g3 g4 g5 hinvQ
        have hinvI : LoopInv spm 0 sI :=
          incrementAll_inv spm 0 (activeLoops s) _ sI hinvF hIA
        refine ⟨0, false, cmds, tr2, ?_, hclk3, ?_⟩
        · rw [← he2]
          exact hint2
        · rw [← he1]
          exact hinvI
  · have hpendF : (s.status.getD s.recordingAtIndex LoopStatus.Empty
        == LoopStatus.RecordEnd) = false := by
      cases hx : (s.status.getD s.recordingAtIndex LoopStatus.Empty
          == LoopStatus.RecordEnd)
      · rfl
      · exact absurd hx hpend
    rw [hpendF] at henq
    rw [enqueueGo_noPending spm (activeLoops s) spm 0 s evs] at henq
    dsimp only at henq
    cases hIA : incrementAll (activeLoops s)
        (mixRun spm (activeLoops s) 0 spm s) with
    | none =>
      rw [hIA] at henq
      cases henq
    | some sI =>
      rw [hIA] at henq
      dsimp only at henq
      injection henq with he
      injection he with he1 he2
      obtain ⟨g1, g2, g3, g4, g5⟩ := mixRun_fields spm (activeLoops s) spm 0 s
      have hinvM : LoopInv spm (spm - B)
          (mixRun spm (activeLoops s) 0 spm s) :=
        LoopInv_of_fields_eq spm (spm - B) s _ g1 g2 g3 g4 g5 hinv
      have hinvI : LoopInv spm (spm - B) sI :=
        incrementAll_inv spm (spm - B) (activeLoops s) _ sI hinvM hIA
      refine ⟨spm - B, true, cmds, tr, ?_, hclk, ?_⟩
      · rw [← he2]
        exact hint
      · rw [← he1]
        exact hinvI

theorem LoopInv_mkLoopManager (numLoops spb : ℕ) (bigTick littleTick : List ℚ)
    (s0 : LoopManager)
    (h0 : mkLoopManager numLoops spb bigTick littleTick = some s0) :
    LoopInv (spb * 4) 0 s0 := by
  have hrecI := RecInv_mkLoopManager numLoops spb bigTick littleTick s0 h0
  unfold mkLoopManager at h0
  by_cases hlen : (metronome spb bigTick littleTick).length = spb * 4
  · rw [if_pos hlen] at h0
    injection h0 with he
    rw [← he] at hrecI
    rw [← he]
    refine ⟨by simp [List.length_set], by simp [List.length_set], hrecI, ?_⟩
    intro j hj
    have hjn : j < numLoops := by
      simpa [List.length_set, List.length_replicate] using hj
    dsimp only
    rw [getD_set_ite, getD_set_ite, getD_set_ite]
    by_cases hj0 : j = 0
    · subst hj0
      rw [if_pos ⟨rfl, by simpa using hjn⟩, if_pos ⟨rfl, by simpa using hjn⟩,
        if_pos ⟨rfl, by simpa using hjn⟩]
      simp only [loopClause]
      exact ⟨by rw [hlen]; omega, by omega⟩
    · rw [if_neg (fun hca => hj0 hca.1.symm),
        if_neg (fun hca => hj0 hca.1.symm),
        if_neg (fun hca => hj0 hca.1.symm)]
      rw [getD_replicate_self, getD_replicate_self, getD_replicate_self]
      simp [loopClause]
  · rw [if_neg hlen] at h0
    cases h0

theorem loopInv_runEngineAux (spm B : ℕ) (hB : 0 < B) (hBs : B < spm) :
    ∀ (fuel : ℕ) (evs : List Event) (s s1 : LoopManager)
      (cmds : List LoopMessage) (tr : List Sample) (c : ℕ) (f : Bool),
      Interleave evs cmds tr → Clocked spm B c f tr → LoopInv spm c s →
      runEngineAux spm fuel s evs = some s1 →
      ∃ c1, LoopInv spm c1 s1 := by
  intro fuel
  induction fuel with
  | zero =>
    intro evs s s1 cmds tr c f hint hclk hinv hrun
    cases evs with
    | nil =>
      injection hrun with he
      exact ⟨c, he ▸ hinv⟩
    | cons e evs =>
      cases e with
      | cmd m => exact absurd hrun (by simp [runEngineAux])
      | clk e2 =>
        cases e2 with
        | preTick => exact absurd hrun (by simp [runEngineAux])
        | tick => exact absurd hrun (by simp [runEngineAux])
        | data x => exact absurd hrun (by simp [runEngineAux])
  | succ n ih =>
    intro evs s s1 cmds tr c f hint hclk hinv hrun
    cases evs with
    | nil =>
      injection hrun with he
      exact ⟨c, he ▸ hinv⟩
    | cons e evs =>
      cases hint with
      | cmd m evs cmds2 tr hint2 =>
        simp only [runEngineAux] at hrun
        exact ih evs (checkMessages s m) s1 cmds2 tr c f hint2 hclk
          (LoopInv_checkMessages spm c s m hinv) hrun
      | clk e2 evs cmds2 tr2 hint2 =>
        cases e2 with
        | data x =>
          cases hclk with
          | data _ _ _ _ hlt hiff hclk2 =>
            simp only [runEngineAux] at hrun
            exact ih evs (dataStep s x) s1 cmds tr2 (c + 1) false hint2 hclk2
              (LoopInv_dataStep spm c s x hinv) hrun
        | tick =>
          cases hclk with
          | tick _ hclk2 =>
            simp only [runEngineAux] at hrun
            cases hup : updateRecordingStatus s with
            | none =>
              rw [hup] at hrun
              cases hrun
            | some sU =>
              rw [hup] at hrun
              dsimp only at hrun
              exact ih evs sU s1 cmds tr2 0 false hint2 hclk2
                (LoopInv_updateRecordingStatus spm s sU hinv hup) hrun
        | preTick =>
          cases hclk with
          | preTick _ hclk2 =>
            simp only [runEngineAux] at hrun
            cases henq : enqueueLoops spm s evs with
            | none =>
              rw [henq] at hrun
              cases hrun
            | some p =>
              rw [henq] at hrun
              dsimp only at hrun
              obtain ⟨p1, p2⟩ := p
              obtain ⟨c2, f2, cmds3, tr3, hint3, hclk3, hinv3⟩ :=
                enqueueLoops_inv spm B hB hBs s p1 evs p2 cmds tr2 hinv
                  hint2 hclk2 henq
              exact ih p2 p1 s1 cmds3 tr3 c2 f2 hint3 hclk3 hinv3 hrun

/-- Claim C6: in every reachable engine state (any command/clock
interleaving of a well-formed sample stream processed from the startup
state), every loop whose status is On(_) or Off has a sample buffer of
length exactly length_measures * samples_per_measure. -/
theorem c6_loop_length_invariant (numLoops spb B : ℕ)
    (bigTick littleTick : List ℚ) (hB : 0 < B) (hBs : B < spb * 4)
    (s0 s : LoopManager) (evs : List Event) (cmds : List LoopMessage)
    (samples : List ℚ)
    (h0 : mkLoopManager numLoops spb bigTick littleTick = some s0)
    (hint : Interleave evs cmds (sendStream (spb * 4) B 0 samples))
    (hrun : runEngine (spb * 4) s0 evs = some s) :
    ∀ j m, (s.status.getD j LoopStatus.Empty = LoopStatus.On m ∨
        s.status.getD j LoopStatus.Empty = LoopStatus.Off) →
      (s.loops.getD j []).length = s.lengths.getD j 0 * (spb * 4) := by
  obtain ⟨c1, hinv⟩ := loopInv_runEngineAux (spb * 4) B hB hBs evs.length
    evs s0 s cmds (sendStream (spb * 4) B 0 samples) 0 false hint
    (sendStream_clocked (spb * 4) B hB hBs samples 0 (by omega))
    (LoopInv_mkLoopManager numLoops spb bigTick littleTick s0 h0) hrun
  intro j m hst
  by_cases hj : j < s.status.length
  · have hcl := hinv.2.2.2 j hj
    rcases hst with h1 | h1
    · rw [h1] at hcl
      exact hcl.1
    · rw [h1] at hcl
      exact hcl.1
  · rcases hst with h1 | h1
    · rw [getD_eq_default_of_oob _ _ _ (by omega)] at h1
      cases h1
    · rw [getD_eq_default_of_oob _ _ _ (by omega)] at h1
      cases h1

theorem c6_loop_length_invariant_witness :
    (({ loops := [[(1 : ℚ), 0, 0, 0], []],
        lengths := [1, 0],
        status := [LoopStatus.On 0, LoopStatus.Empty],
        anyRecording := false,
        recordingAtIndex := 0,
        playback := [(1 : ℚ), 0, 0, 0] } : LoopManager).loops.getD 0
          []).length
      = ({ loops := [[(1 : ℚ), 0, 0, 0], []],
           lengths := [1, 0],
           status := [LoopStatus.On 0, LoopStatus.Empty],
           anyRecording := false,
           recordingAtIndex := 0,
           playback := [(1 : ℚ), 0, 0, 0] } : LoopManager).lengths.getD 0 0
          * (1 * 4) :=
  c6_loop_length_invariant 2 1 2 [(1 : ℚ)] [] (by decide) (by decide)
    { loops := [[(1 : ℚ), 0, 0, 0], []], lengths := [1, 0],
      status := [LoopStatus.On 0, LoopStatus.Empty],
      anyRecording := false, recordingAtIndex := 0,
      playback := [(1 : ℚ), 0, 0, 0] }
    { loops := [[(1 : ℚ), 0, 0, 0], []], lengths := [1, 0],
      status := [LoopStatus.On 0, LoopStatus.Empty],
      anyRecording := false, recordingAtIndex := 0,
      playback := [(1 : ℚ), 0, 0, 0] }
    [] [] [] (by decide) Interleave.nil (by decide) 0 0 (Or.inl (by decide))

end GuitarPedal
